import Mathlib

/-!
Shallow embedding of the EasyLocal local-search framework core, together with
theorems checking the natural-language specification against the code.

The embedding covers:
* the tabu list manager (`TabuListManager.hh`): items, purging, insertion,
  aspiration and the prohibition test;
* the cost structures (`costcomponents` in part 001): `DefaultCostStructure`
  and `HierarchicalCostStructure` with their arithmetic and orderings;
* the set-union and cartesian-product multimodal neighborhood explorers
  (`multimodalneighborhoodexplorer.hh`): activity dispatch, chain generation
  with relatedness filtering and backtracking, composite delta costs;
* the parallel neighborhood explorer's best-move reservoir selection
  (`parallelneighborhoodexplorer.hh`);
* the simulated-annealing cooling bookkeeping (`SimulatedAnnealing.hh` and
  `SimulatedAnnealingWithReheating.hh`).

Machine integers of the C++ code (`int`, `unsigned long`) are modelled as
`Int`/`Nat` (no overflow occurs in the scenarios considered), `double` as
`Rat`, `std::vector`/`std::list` as `List`, and functions that throw
(`EmptyNeighborhood`, `std::logic_error`) as `Option`-valued functions.
-/

namespace EasyLocalCheck

/-! ## Tabu list manager (TabuListManager.hh) -/

/-- A tabu list item: the stored move together with the iteration at which
the element leaves the list (`TabuListItem`). -/
structure TabuListItem (Move : Type) where
  elem : Move
  out_iter : Nat
deriving Repr, DecidableEq

/-- The state of a `TabuListManager`: tenure range, iteration counter, the
list of tabu items, and the current/best state costs recorded for the
aspiration criterion. -/
structure TabuListManager (Move : Type) where
  min_tenure : Nat
  max_tenure : Nat
  iter : Nat
  tlist : List (TabuListItem Move)
  current_state_cost : Int
  best_state_cost : Int
deriving Repr, DecidableEq

variable {Move : Type}

/-- `TabuListManager::ListMember`: whether the inverse of `mv` belongs to the
tabu list.  The user-supplied `Inverse` predicate is a parameter. -/
def ListMember (Inverse : Move → Move → Bool) (tm : TabuListManager Move) (mv : Move) : Bool :=
  tm.tlist.any fun p => Inverse mv p.elem

/-- `TabuListManager::Aspiration` (default): the move cost applied to the
current state gives a value lower than the best state cost found so far.
`LessThan` instantiated at an integral cost type is the strict order. -/
def Aspiration (tm : TabuListManager Move) (mv_cost : Int) : Bool :=
  decide (tm.current_state_cost + mv_cost < tm.best_state_cost)

/-- `TabuListManager::ProhibitedMove`: prohibited iff the aspiration criterion
fails and the inverse of the move is in the list. -/
def ProhibitedMove (Inverse : Move → Move → Bool) (tm : TabuListManager Move)
    (mv : Move) (mv_cost : Int) : Bool :=
  !Aspiration tm mv_cost && ListMember Inverse tm mv

/-- `TabuListManager::PurgeList`: erase every item whose `out_iter` is less
than or equal to the current iteration. -/
def PurgeList (tm : TabuListManager Move) : TabuListManager Move :=
  { tm with tlist := tm.tlist.filter fun p => !decide (p.out_iter ≤ tm.iter) }

/-- `TabuListManager::UpdateIteration`: purge the list, then advance the
iteration counter. -/
def UpdateIteration (tm : TabuListManager Move) : TabuListManager Move :=
  let tm' := PurgeList tm
  { tm' with iter := tm'.iter + 1 }

/-- `TabuListManager::InsertIntoList` with the drawn tenure made explicit
(the C++ draws `tenure = Random::Int(min_tenure, max_tenure)`): push the item
with expiry `iter + tenure` at the front, then run the iteration update. -/
def InsertIntoList (tenure : Nat) (tm : TabuListManager Move) (mv : Move) :
    TabuListManager Move :=
  UpdateIteration { tm with tlist := ⟨mv, tm.iter + tenure⟩ :: tm.tlist }

/-- `TabuListManager::UpdateAspirationFunction`: record the current and best
state costs used by later aspiration tests. -/
def UpdateAspirationFunction (tm : TabuListManager Move) (curr best : Int) :
    TabuListManager Move :=
  { tm with current_state_cost := curr, best_state_cost := best }

/-- `TabuListManager::InsertMove`: insert into the list (which also ticks the
iteration) and update the aspiration data.  The move cost argument is unused
by the C++ body as well. -/
def InsertMove (tenure : Nat) (tm : TabuListManager Move) (mv : Move)
    (_mv_cost curr best : Int) : TabuListManager Move :=
  UpdateAspirationFunction (InsertIntoList tenure tm mv) curr best

theorem PurgeList_iter (tm : TabuListManager Move) : (PurgeList tm).iter = tm.iter := rfl

theorem UpdateIteration_iter (tm : TabuListManager Move) :
    (UpdateIteration tm).iter = tm.iter + 1 := rfl

theorem UpdateIteration_costs (tm : TabuListManager Move) :
    (UpdateIteration tm).current_state_cost = tm.current_state_cost ∧
    (UpdateIteration tm).best_state_cost = tm.best_state_cost := ⟨rfl, rfl⟩

theorem iterate_UpdateIteration_iter (tm : TabuListManager Move) (k : Nat) :
    (UpdateIteration^[k] tm).iter = tm.iter + k := by
  induction k generalizing tm with
  | zero => simp
  | succ n ih =>
      rw [Function.iterate_succ_apply, ih, UpdateIteration_iter]
      omega

theorem iterate_UpdateIteration_costs (tm : TabuListManager Move) (k : Nat) :
    (UpdateIteration^[k] tm).current_state_cost = tm.current_state_cost ∧
    (UpdateIteration^[k] tm).best_state_cost = tm.best_state_cost := by
  induction k generalizing tm with
  | zero => simp
  | succ n ih =>
      rw [Function.iterate_succ_apply]
      exact ih (UpdateIteration tm)

/-- After `k + 1` iteration updates, the list retains exactly the items whose
expiry lies strictly beyond the starting iteration plus `k`. -/
theorem iterate_UpdateIteration_tlist (tm : TabuListManager Move) (k : Nat) :
    (UpdateIteration^[k + 1] tm).tlist
      = tm.tlist.filter fun p => decide (tm.iter + k < p.out_iter) := by
  induction k generalizing tm with
  | zero =>
      show (tm.tlist.filter fun p => !decide (p.out_iter ≤ tm.iter)) = _
      refine List.filter_congr fun a _ => ?_
      rw [← decide_not]
      exact decide_eq_decide.mpr (by omega)
  | succ n ih =>
      rw [Function.iterate_succ_apply']
      have hiter : (UpdateIteration^[n + 1] tm).iter = tm.iter + (n + 1) :=
        iterate_UpdateIteration_iter tm (n + 1)
      show ((UpdateIteration^[n+1] tm).tlist.filter
          fun p => !decide (p.out_iter ≤ (UpdateIteration^[n+1] tm).iter)) = _
      rw [ih, List.filter_filter, hiter]
      refine List.filter_congr fun a _ => ?_
      by_cases h1 : tm.iter + n < a.out_iter <;>
        by_cases h2 : a.out_iter ≤ tm.iter + (n + 1) <;>
          simp [h1, h2] <;> omega

theorem any_filter {α : Type} (l : List α) (p q : α → Bool) :
    (l.filter p).any q = l.any fun a => p a && q a := by
  induction l with
  | nil => rfl
  | cons x xs ih =>
      by_cases h : p x = true <;> simp [List.filter_cons, h, ih]

/-- C1.  Insert a move `m` at internal iteration `t := tm.iter` with drawn
tenure `τ` (the expiry is `t + τ`).  Probing the prohibition of any move `mv`
whose `Inverse` matches `m`, at the point where `k` iteration updates (ticks)
have followed the insertion — i.e. at iteration `t + k`, the insertion itself
performing the tick of iteration `t` — yields `true` exactly for
`k < τ` (iterations `t, …, t + τ - 1`) and `false` at `k = τ` (iteration
`t + τ`), the item having been removed by the iteration update, provided the
aspiration criterion does not hold for the probe and no pre-existing list
item matches `mv`. -/
theorem tabu_prohibition_window (Inverse : Move → Move → Bool)
    (tm : TabuListManager Move) (m mv : Move) (τ k : Nat)
    (mc probe_cost curr best : Int)
    (hτ : tm.min_tenure ≤ τ ∧ τ ≤ tm.max_tenure)
    (hmatch : Inverse mv m = true)
    (hold : ∀ it ∈ tm.tlist, Inverse mv it.elem = false)
    (hasp : best ≤ curr + probe_cost) :
    ProhibitedMove Inverse (UpdateIteration^[k] (InsertMove τ tm m mc curr best))
        mv probe_cost = decide (k < τ) := by
  clear hτ
  set s0 : TabuListManager Move :=
    { tm with tlist := ⟨m, tm.iter + τ⟩ :: tm.tlist } with hs0
  have hcomm : ∀ (x : TabuListManager Move) (c b : Int),
      UpdateIteration (UpdateAspirationFunction x c b)
        = UpdateAspirationFunction (UpdateIteration x) c b := by
    intro x c b; rfl
  have hmove : UpdateIteration^[k] (InsertMove τ tm m mc curr best)
      = UpdateAspirationFunction (UpdateIteration^[k + 1] s0) curr best := by
    show UpdateIteration^[k] (UpdateAspirationFunction (UpdateIteration s0) curr best) = _
    induction k with
    | zero => simp
    | succ n ih =>
        rw [Function.iterate_succ_apply', ih, hcomm,
          Function.iterate_succ_apply' UpdateIteration (n + 1) s0]
  rw [hmove]
  have htl : (UpdateIteration^[k + 1] s0).tlist
      = s0.tlist.filter fun p => decide (tm.iter + k < p.out_iter) := by
    have := iterate_UpdateIteration_tlist s0 k
    simpa using this
  have hasp' : Aspiration (UpdateAspirationFunction (UpdateIteration^[k+1] s0) curr best)
      probe_cost = false := by
    simp [Aspiration, UpdateAspirationFunction]
    omega
  have hmem : ListMember Inverse (UpdateAspirationFunction (UpdateIteration^[k+1] s0) curr best) mv
      = decide (k < τ) := by
    show ((UpdateIteration^[k+1] s0).tlist.any fun p => Inverse mv p.elem) = _
    rw [htl, any_filter]
    simp only [hs0, List.any_cons, hmatch, Bool.and_true]
    have hrest : (tm.tlist.any fun a =>
        decide (tm.iter + k < a.out_iter) && Inverse mv a.elem) = false := by
      rw [List.any_eq_false]
      intro a ha
      simp [hold a ha]
    rw [hrest, Bool.or_false]
    by_cases h : k < τ <;> simp [h] <;> omega
  show (!Aspiration (UpdateAspirationFunction (UpdateIteration^[k+1] s0) curr best) probe_cost
      && ListMember Inverse (UpdateAspirationFunction (UpdateIteration^[k+1] s0) curr best) mv)
    = decide (k < τ)
  rw [hasp', hmem]
  simp

theorem tabu_prohibition_window_witness :
    (ProhibitedMove (fun a b => a == b)
        (UpdateIteration^[1] (InsertMove 3 ⟨1, 5, 0, [], 0, 0⟩ 7 0 0 0)) 7 0 = true)
    ∧ (ProhibitedMove (fun a b => a == b)
        (UpdateIteration^[3] (InsertMove 3 ⟨1, 5, 0, [], 0, 0⟩ 7 0 0 0)) 7 0 = false) := by
  constructor
  · have := @tabu_prohibition_window Nat (fun a b => a == b)
      ⟨1, 5, 0, [], 0, 0⟩ 7 7 3 1 0 0 0 0 (by constructor <;> decide) (by decide)
      (by intro it h; cases h) (by decide)
    simpa using this
  · have := @tabu_prohibition_window Nat (fun a b => a == b)
      ⟨1, 5, 0, [], 0, 0⟩ 7 7 3 3 0 0 0 0 (by constructor <;> decide) (by decide)
      (by intro it h; cases h) (by decide)
    simpa using this

/-- C5.  If the current state cost recorded in the manager plus the move cost
is strictly below the recorded best state cost (the default aspiration
criterion), `ProhibitedMove` is `false` regardless of the list contents;
otherwise it is `true` exactly when some list item satisfies
`Inverse mv item.elem`. -/
theorem aspiration_overrides_prohibition (Inverse : Move → Move → Bool)
    (tm : TabuListManager Move) (mv : Move) (mv_cost : Int) :
    (tm.current_state_cost + mv_cost < tm.best_state_cost →
        ProhibitedMove Inverse tm mv mv_cost = false)
    ∧ (tm.best_state_cost ≤ tm.current_state_cost + mv_cost →
        (ProhibitedMove Inverse tm mv mv_cost = true ↔
          ∃ it ∈ tm.tlist, Inverse mv it.elem = true)) := by
  constructor
  · intro h
    simp [ProhibitedMove, Aspiration, h]
  · intro h
    have : Aspiration tm mv_cost = false := by simp [Aspiration]; omega
    simp [ProhibitedMove, this, ListMember, List.any_eq_true]

theorem aspiration_overrides_prohibition_witness :
    (ProhibitedMove (fun a b => a == b)
        (⟨0, 5, 2, [⟨4, 9⟩], 0, 10⟩ : TabuListManager Nat) 4 3 = false)
    ∧ (ProhibitedMove (fun a b => a == b)
        (⟨0, 5, 2, [⟨4, 9⟩], 0, 10⟩ : TabuListManager Nat) 4 12 = true) := by
  constructor
  · exact (aspiration_overrides_prohibition (fun a b => a == b)
      ⟨0, 5, 2, [⟨4, 9⟩], 0, 10⟩ 4 3).1 (by decide)
  · exact ((aspiration_overrides_prohibition (fun a b => a == b)
      ⟨0, 5, 2, [⟨4, 9⟩], 0, 10⟩ 4 12).2 (by decide)).mpr ⟨⟨4, 9⟩, by simp⟩

/-- C10.  `InsertMove` is not a pure insertion: it prepends the new item with
expiry `iter + tenure`, records the current and best costs for later
aspiration tests, purges every item (including, when the tenure is zero, the
new one) whose expiry is at most the current iteration, and increments the
iteration counter by one — one full tick per insertion. -/
theorem InsertMove_frame_effect (tm : TabuListManager Move) (tenure : Nat)
    (mv : Move) (mv_cost curr best : Int) :
    InsertMove tenure tm mv mv_cost curr best =
      { min_tenure := tm.min_tenure
        max_tenure := tm.max_tenure
        iter := tm.iter + 1
        tlist := (({ elem := mv, out_iter := tm.iter + tenure } : TabuListItem Move)
            :: tm.tlist).filter fun p => !decide (p.out_iter ≤ tm.iter)
        current_state_cost := curr
        best_state_cost := best } := rfl

/-! ## Cost structures (costcomponents, part 001) -/

/-- `DefaultCostStructure<CFtype>` at `CFtype = int`: total, violations,
objective, the per-component vector, the optional weighted scalar
(a `double`, modelled as `Rat`) and its presence flag. -/
structure DefaultCostStructure where
  total : Int
  violations : Int
  objective : Int
  all_components : List Int
  weighted : Rat
  is_weighted : Bool
deriving Repr, DecidableEq

/-- `HierarchicalCostStructure<CFtype>` at `CFtype = int`: the same fields as
the default structure; only the comparison operators differ. -/
structure HierarchicalCostStructure where
  total : Int
  violations : Int
  objective : Int
  all_components : List Int
  weighted : Rat
  is_weighted : Bool
deriving Repr, DecidableEq

/-- The component-vector part of `operator+=`: resize the left vector with
zeros when it is shorter, then add the right vector entry by entry (entries
of the left vector beyond the right one are kept). -/
def addComponents : List Int → List Int → List Int
  | xs, [] => xs
  | [], y :: ys => (0 + y) :: addComponents [] ys
  | x :: xs, y :: ys => (x + y) :: addComponents xs ys

/-- The component-vector part of `operator-=`, with the same resizing. -/
def subComponents : List Int → List Int → List Int
  | xs, [] => xs
  | [], y :: ys => (0 - y) :: subComponents [] ys
  | x :: xs, y :: ys => (x - y) :: subComponents xs ys

/-- `operator+` on `DefaultCostStructure` (copy of the left operand followed
by `operator+=`): totals, violations and objectives sum, components add with
zero-extension, and `weighted`/`is_weighted` are left untouched (they keep
the left operand's values). -/
def DefaultCostStructure.add (a b : DefaultCostStructure) : DefaultCostStructure :=
  { total := a.total + b.total
    violations := a.violations + b.violations
    objective := a.objective + b.objective
    all_components := addComponents a.all_components b.all_components
    weighted := a.weighted
    is_weighted := a.is_weighted }

/-- `operator-` on `DefaultCostStructure` (copy followed by `operator-=`). -/
def DefaultCostStructure.sub (a b : DefaultCostStructure) : DefaultCostStructure :=
  { total := a.total - b.total
    violations := a.violations - b.violations
    objective := a.objective - b.objective
    all_components := subComponents a.all_components b.all_components
    weighted := a.weighted
    is_weighted := a.is_weighted }

/-- Modelled from the spec: the scalar comparison helper `LessThan` of
`utils/types.hh` is declared but not implemented under `src`; per the spec
the aggregated regime simply "compares" the weighted scalar, so the helper is
modelled as the strict order on `Rat`. -/
def LessThanW (x y : Rat) : Bool := decide (x < y)

/-- `operator<` on `DefaultCostStructure`: compare the weighted scalars when
both operands carry weights, the totals otherwise. -/
def DefaultCostStructure.lt (a b : DefaultCostStructure) : Bool :=
  if a.is_weighted && b.is_weighted then LessThanW a.weighted b.weighted
  else decide (a.total < b.total)

/-- The loop of `operator<` on `HierarchicalCostStructure`: scan the
components of the left operand in order, deciding at the first strict
difference; reaching the end of the left vector yields `false`.  (The C++
loop indexes the right vector by the same index; the case of a shorter right
vector is out-of-range in the C++ and is modelled by stopping the loop.) -/
def lexLtComponents : List Int → List Int → Bool
  | [], _ => false
  | _ :: _, [] => false
  | x :: xs, y :: ys =>
      if x < y then true
      else if y < x then false
      else lexLtComponents xs ys

/-- `operator<` on `HierarchicalCostStructure`: lexicographic on the
component vectors. -/
def HierarchicalCostStructure.lt (a b : HierarchicalCostStructure) : Bool :=
  lexLtComponents a.all_components b.all_components

theorem addComponents_length (xs ys : List Int) :
    (addComponents xs ys).length = max xs.length ys.length := by
  induction xs generalizing ys with
  | nil =>
      induction ys with
      | nil => rfl
      | cons y ys ih => simp [addComponents, ih]
  | cons x xs ih =>
      cases ys with
      | nil => simp [addComponents]
      | cons y ys => simp [addComponents, ih]; omega

theorem sub_add_components (xs ys : List Int) (h : xs.length = ys.length) :
    subComponents (addComponents xs ys) ys = xs := by
  induction xs generalizing ys with
  | nil =>
      cases ys with
      | nil => rfl
      | cons y ys => simp at h
  | cons x xs ih =>
      cases ys with
      | nil => simp at h
      | cons y ys =>
          simp only [addComponents, subComponents, List.cons.injEq]
          exact ⟨by omega, ih ys (by simpa using h)⟩

/-- C8.  Cost-structure addition and subtraction are pointwise on violations,
objective and the component vectors (the longer side's length wins, missing
entries count as zero) while totals sum; consequently `(a + b) - b = a`
holds exactly, field by field, whenever the component vectors have equal
length. -/
theorem cost_structure_add_sub_cancel (a b : DefaultCostStructure)
    (h : a.all_components.length = b.all_components.length) :
    (a.add b).sub b = a := by
  obtain ⟨t, v, o, c, w, iw⟩ := a
  obtain ⟨t', v', o', c', w', iw'⟩ := b
  simp only [DefaultCostStructure.add, DefaultCostStructure.sub,
    DefaultCostStructure.mk.injEq]
  refine ⟨by omega, by omega, by omega, ?_, by trivial, by trivial⟩
  exact sub_add_components c c' (by simpa using h)

theorem cost_structure_add_sub_cancel_witness :
    (DefaultCostStructure.sub
      (DefaultCostStructure.add ⟨12, 1, 2, [5, -3], 0, false⟩ ⟨7, 0, 7, [2, 9], 1, true⟩)
      ⟨7, 0, 7, [2, 9], 1, true⟩) = ⟨12, 1, 2, [5, -3], 0, false⟩ :=
  cost_structure_add_sub_cancel ⟨12, 1, 2, [5, -3], 0, false⟩ ⟨7, 0, 7, [2, 9], 1, true⟩ rfl

theorem lexLtComponents_self (xs : List Int) : lexLtComponents xs xs = false := by
  induction xs with
  | nil => rfl
  | cons x xs ih => simp [lexLtComponents, ih]

theorem lexLtComponents_iff_lex (xs ys : List Int) (h : xs.length = ys.length) :
    lexLtComponents xs ys = true ↔ List.Lex (· < ·) xs ys := by
  induction xs generalizing ys with
  | nil =>
      cases ys with
      | nil =>
          simp only [lexLtComponents, Bool.false_eq_true, false_iff]
          intro hc; cases hc
      | cons y ys => simp at h
  | cons x xs ih =>
      cases ys with
      | nil => simp at h
      | cons y ys =>
          simp only [lexLtComponents]
          by_cases h1 : x < y
          · simp only [h1, if_true, true_iff]
            exact List.Lex.rel h1
          · by_cases h2 : y < x
            · simp only [h1, h2, if_false, if_true, Bool.false_eq_true, false_iff]
              intro hc
              cases hc with
              | rel hr => omega
              | cons _ => omega
            · have hxy : x = y := by omega
              subst hxy
              simp only [h1, h2, if_false]
              rw [ih ys (by simpa using h)]
              constructor
              · intro hl; exact List.Lex.cons hl
              · intro hl
                cases hl with
                | rel hr => omega
                | cons htail => exact htail

/-- C6.  The aggregated regime (`DefaultCostStructure`): `a < b` compares the
weighted scalars when both operands carry weights, and the totals otherwise.
The hierarchical regime (`HierarchicalCostStructure`): the order is
lexicographic over the component vectors, and componentwise-equal structures
satisfy neither `a < b` nor `b < a`. -/
theorem cost_structure_orderings :
    (∀ a b : DefaultCostStructure,
      (a.is_weighted = true → b.is_weighted = true →
        (a.lt b = true ↔ a.weighted < b.weighted))
      ∧ ((a.is_weighted = false ∨ b.is_weighted = false) →
        (a.lt b = true ↔ a.total < b.total)))
    ∧ (∀ a b : HierarchicalCostStructure,
        a.all_components.length = b.all_components.length →
        (a.lt b = true ↔ List.Lex (· < ·) a.all_components b.all_components))
    ∧ (∀ a b : HierarchicalCostStructure,
        a.all_components = b.all_components →
        a.lt b = false ∧ b.lt a = false) := by
  refine ⟨fun a b => ⟨?_, ?_⟩, fun a b h => ?_, fun a b h => ?_⟩
  · intro ha hb
    simp [DefaultCostStructure.lt, ha, hb, LessThanW]
  · intro hor
    have : (a.is_weighted && b.is_weighted) = false := by
      rcases hor with h | h <;> simp [h]
    simp [DefaultCostStructure.lt, this]
  · exact lexLtComponents_iff_lex a.all_components b.all_components h
  · constructor
    · show lexLtComponents a.all_components b.all_components = false
      rw [h]; exact lexLtComponents_self _
    · show lexLtComponents b.all_components a.all_components = false
      rw [h]; exact lexLtComponents_self _

theorem cost_structure_orderings_witness :
    ((DefaultCostStructure.lt ⟨10, 0, 10, [0, 10], 10, false⟩
        ⟨1000, 1, 0, [1, 0], 5, true⟩) = true)
    ∧ ((HierarchicalCostStructure.lt ⟨10, 0, 10, [0, 10], 10, false⟩
        ⟨1000, 1, 0, [1, 0], 5, true⟩) = true)
    ∧ ((HierarchicalCostStructure.lt ⟨3, 0, 3, [1, 2], 0, false⟩
        ⟨4, 0, 4, [1, 2], 9, true⟩) = false) := by
  refine ⟨?_, ?_, ?_⟩
  · exact ((cost_structure_orderings.1 ⟨10, 0, 10, [0, 10], 10, false⟩
      ⟨1000, 1, 0, [1, 0], 5, true⟩).2 (Or.inl rfl)).mpr (by decide)
  · exact (cost_structure_orderings.2.1 ⟨10, 0, 10, [0, 10], 10, false⟩
      ⟨1000, 1, 0, [1, 0], 5, true⟩ rfl).mpr (List.Lex.rel (by decide))
  · exact (cost_structure_orderings.2.2 ⟨3, 0, 3, [1, 2], 0, false⟩
      ⟨4, 0, 4, [1, 2], 9, true⟩ rfl).1

/-! ## Multimodal neighborhood explorers (multimodalneighborhoodexplorer.hh)

The C++ composes `N` base explorers of distinct move types into a tuple,
with all operations dispatched by compile-time tuple recursion on a level
index.  The embedding follows the uniform-interface restatement: each base
explorer is a record of operations over a common `State`/`Move` type, the
composite holds a list of them, and the composite move is a list of
`ActiveMove`s; the level argument becomes a list index. -/

/-- `ActiveMove<Move>`: a move payload plus the `active` flag. -/
structure ActiveMove (Move : Type) where
  move : Move
  active : Bool
deriving Repr, DecidableEq

/-- `operator==` on `ActiveMove`: two inactive moves are equal regardless of
payload; moves with different flags differ; two active moves compare by
payload. -/
def activeMoveEq {Move : Type} (eqm : Move → Move → Bool)
    (mv1 mv2 : ActiveMove Move) : Bool :=
  if !mv1.active && !mv2.active then true
  else if mv1.active != mv2.active then false
  else eqm mv1.move mv2.move

/-- The default-constructed `DefaultCostStructure` (all fields zero, not
weighted), used to initialize composite delta-cost accumulation. -/
def DefaultCostStructure.empty : DefaultCostStructure := ⟨0, 0, 0, [], 0, false⟩

instance : Inhabited DefaultCostStructure := ⟨DefaultCostStructure.empty⟩

/-- The uniform interface of a base neighborhood explorer: `FirstMove` and
`RandomMove` produce `none` on `EmptyNeighborhood`, `NextMove` produces
`none` when the enumeration is exhausted (the C++ returns `false`). -/
structure BaseExplorer (State MoveT : Type) where
  FirstMove : State → Option MoveT
  NextMove : State → MoveT → Option MoveT
  RandomMove : State → Option MoveT
  MakeMove : State → MoveT → State
  DeltaCost : State → MoveT → DefaultCostStructure

/-- `Impl::MoveDispatcher::get_first_active`: index of the first active move,
starting from `level`; the C++ throws `logic_error` past the end (`none`). -/
def get_first_active {Move : Type} : List (ActiveMove Move) → Nat → Option Nat
  | [], _ => none
  | m :: ms, level =>
      if m.active then some level else get_first_active ms (level + 1)

/-- `SetUnionNeighborhoodExplorer::MakeMove`: dispatch the move application
to the first active index. -/
def SetUnionMakeMove {State Move : Type} (nhes : List (BaseExplorer State Move))
    (st : State) (moves : List (ActiveMove Move)) : Option State :=
  match get_first_active moves 0 with
  | none => none
  | some i =>
      match nhes[i]?, moves[i]? with
      | some ne, some m => some (ne.MakeMove st m.move)
      | _, _ => none

/-- `SetUnionNeighborhoodExplorer::DeltaCostFunctionComponents`: dispatch the
delta-cost evaluation to the first active index. -/
def SetUnionDeltaCost {State Move : Type} (nhes : List (BaseExplorer State Move))
    (st : State) (moves : List (ActiveMove Move)) : Option DefaultCostStructure :=
  match get_first_active moves 0 with
  | none => none
  | some i =>
      match nhes[i]?, moves[i]? with
      | some ne, some m => some (ne.DeltaCost st m.move)
      | _, _ => none

theorem get_first_active_unique {Move : Type} (moves : List (ActiveMove Move))
    (i : Nat) (hi : i < moves.length)
    (hact : ∀ j (hj : j < moves.length), (moves.get ⟨j, hj⟩).active = true ↔ j = i) :
    ∀ base : Nat, get_first_active moves base = some (base + i) := by
  induction moves generalizing i with
  | nil => exact absurd hi (by simp)
  | cons m ms ih =>
      intro base
      by_cases hm : m.active = true
      · have : 0 = i := (hact 0 (by simp)).mp hm
        subst this
        simp [get_first_active, hm]
      · cases i with
        | zero => exact absurd ((hact 0 (by simp)).mpr rfl) hm
        | succ i' =>
            simp only [get_first_active, hm, if_false]
            have hi' : i' < ms.length := by simpa [Nat.succ_lt_succ_iff] using hi
            have hact' : ∀ j (hj : j < ms.length),
                (ms.get ⟨j, hj⟩).active = true ↔ j = i' := by
              intro j hj
              have := hact (j + 1) (by simpa using Nat.succ_lt_succ hj)
              simpa using this
            have := ih i' hi' hact' (base + 1)
            rw [this]
            exact congrArg some (by omega)

/-- C9.  For a SetUnion composite move whose (unique) active component is
base `i`, the composite `MakeMove` performs exactly base `i`'s move
application to the `i`-th payload, and the composite delta cost is exactly
base `i`'s delta cost on that payload. -/
theorem setunion_dispatches_to_active {State Move : Type}
    (nhes : List (BaseExplorer State Move)) (st : State)
    (moves : List (ActiveMove Move)) (i : Nat)
    (hlen : moves.length = nhes.length) (hi : i < moves.length)
    (hact : ∀ j (hj : j < moves.length), (moves.get ⟨j, hj⟩).active = true ↔ j = i) :
    SetUnionMakeMove nhes st moves
        = some ((nhes.get ⟨i, hlen ▸ hi⟩).MakeMove st (moves.get ⟨i, hi⟩).move)
    ∧ SetUnionDeltaCost nhes st moves
        = some ((nhes.get ⟨i, hlen ▸ hi⟩).DeltaCost st (moves.get ⟨i, hi⟩).move) := by
  have hfa : get_first_active moves 0 = some i := by
    simpa using get_first_active_unique moves i hi hact 0
  have hne : nhes[i]? = some (nhes.get ⟨i, hlen ▸ hi⟩) := by
    rw [List.getElem?_eq_getElem (hlen ▸ hi)]
    simp
  have hmv : moves[i]? = some (moves.get ⟨i, hi⟩) := by
    rw [List.getElem?_eq_getElem hi]
    simp
  constructor
  · simp [SetUnionMakeMove, hfa, hne, hmv]
  · simp [SetUnionDeltaCost, hfa, hne, hmv]

theorem setunion_dispatches_to_active_witness :
    (@SetUnionMakeMove Int Int
        [⟨fun _ => none, fun _ _ => none, fun _ => none, fun s m => s + m, fun _ _ => default⟩,
         ⟨fun _ => none, fun _ _ => none, fun _ => none, fun s m => s * m, fun _ _ => default⟩]
        10 [⟨3, false⟩, ⟨4, true⟩] = some 40)
    ∧ (@SetUnionDeltaCost Int Int
        [⟨fun _ => none, fun _ _ => none, fun _ => none, fun s m => s + m, fun _ _ => default⟩,
         ⟨fun _ => none, fun _ _ => none, fun _ => none, fun s m => s * m, fun _ _ => default⟩]
        10 [⟨3, false⟩, ⟨4, true⟩] = some default) := by
  have h := @setunion_dispatches_to_active Int Int
    [⟨fun _ => none, fun _ _ => none, fun _ => none, fun s m => s + m, fun _ _ => default⟩,
     ⟨fun _ => none, fun _ _ => none, fun _ => none, fun s m => s * m, fun _ _ => default⟩]
    10 [⟨3, false⟩, ⟨4, true⟩] 1 rfl (by decide)
    (by intro j hj; simp at hj; interval_cases j <;> simp)
  exact ⟨by rw [h.1]; rfl, by rw [h.2]; rfl⟩

/-! ## Simulated annealing cooling (SimulatedAnnealingWithReheating.hh)

Modelled from the spec: the `MoveRunner` iteration loop
(`runners/MoveRunner.hh`) is not under `src`; per the spec the runner
performs `select_move`, the acceptance test, the accepted-move bookkeeping,
and then the iteration update unconditionally at the end of every iteration.
The bodies of the hooks are taken from `src`: `SelectMove` increments
`neighbors_sampled`, `CompleteMove` increments `neighbors_accepted` when the
move was accepted, and `UpdateIterationCounter` performs the cooling check. -/

structure SAParams where
  cooling_rate : Rat
  max_neighbors_sampled : Nat
  max_neighbors_accepted : Nat
deriving Repr, DecidableEq

structure SAState where
  temperature : Rat
  neighbors_sampled : Nat
  neighbors_accepted : Nat
deriving Repr, DecidableEq

/-- One runner iteration of the simulated-annealing bookkeeping:
`SelectMove` (`neighbors_sampled++`), `CompleteMove` on acceptance
(`neighbors_accepted++`), then `UpdateIterationCounter` — when
`neighbors_sampled == max_neighbors_sampled` or
`neighbors_accepted == max_neighbors_accepted`, multiply the temperature by
`cooling_rate` and reset both counters to zero. -/
def SAIteration (p : SAParams) (accepted : Bool) (s : SAState) : SAState :=
  let ns := s.neighbors_sampled + 1
  let na := if accepted then s.neighbors_accepted + 1 else s.neighbors_accepted
  if ns = p.max_neighbors_sampled ∨ na = p.max_neighbors_accepted then
    { temperature := s.temperature * p.cooling_rate
      neighbors_sampled := 0
      neighbors_accepted := 0 }
  else
    { temperature := s.temperature
      neighbors_sampled := ns
      neighbors_accepted := na }

/-- C7.  Every iteration increments `neighbors_sampled` (and, on acceptance,
`neighbors_accepted`), and the cooling check evaluated at the end of the
iteration multiplies the temperature by `cooling_rate` and resets both
counters exactly when one of the incremented counters has reached its
maximum; otherwise the temperature is unchanged and the incremented counters
are kept. -/
theorem sa_cooling_step (p : SAParams) (accepted : Bool) (s : SAState) :
    (s.neighbors_sampled + 1 = p.max_neighbors_sampled
        ∨ (if accepted then s.neighbors_accepted + 1 else s.neighbors_accepted)
            = p.max_neighbors_accepted →
      SAIteration p accepted s
        = { temperature := s.temperature * p.cooling_rate
            neighbors_sampled := 0
            neighbors_accepted := 0 })
    ∧ (¬(s.neighbors_sampled + 1 = p.max_neighbors_sampled
        ∨ (if accepted then s.neighbors_accepted + 1 else s.neighbors_accepted)
            = p.max_neighbors_accepted) →
      SAIteration p accepted s
        = { temperature := s.temperature
            neighbors_sampled := s.neighbors_sampled + 1
            neighbors_accepted :=
              if accepted then s.neighbors_accepted + 1 else s.neighbors_accepted }) := by
  constructor
  · intro h
    simp only [SAIteration, if_pos h]
  · intro h
    simp only [SAIteration, if_neg h]

theorem sa_cooling_step_witness :
    (SAIteration ⟨(1 : Rat) / 2, 3, 10⟩ true ⟨8, 2, 1⟩ = ⟨4, 0, 0⟩)
    ∧ (SAIteration ⟨(1 : Rat) / 2, 3, 10⟩ false ⟨8, 1, 1⟩ = ⟨8, 2, 1⟩) := by
  constructor
  · have := (sa_cooling_step ⟨(1 : Rat) / 2, 3, 10⟩ true ⟨8, 2, 1⟩).1 (by left; rfl)
    rw [this]
    norm_num
  · have := (sa_cooling_step ⟨(1 : Rat) / 2, 3, 10⟩ false ⟨8, 1, 1⟩).2 (by simp)
    rw [this]
    rfl

/-! ## Parallel explorer best-move selection (parallelneighborhoodexplorer.hh)

`SelectBest` (and `RandomBest`, which runs the same reservoir update over
sampled moves) processes a stream of evaluated moves; the mutex serializes
the updates, so the semantics is a fold over the presented order.  The
randomness of `Random::Int(0, number_of_bests)` — uniform over the
`number_of_bests + 1` values, as documented by the code comment "accept the
move with probability 1 / (1 + number_of_bests)" — is modelled by a
finitely-supported weighted-outcome semantics. -/

/-- Weighted outcomes; the probability of an event is the sum of the weights
of the outcomes satisfying it. -/
abbrev Dist (α : Type) : Type := List (α × Rat)

def Dist.pure {α : Type} (a : α) : Dist α := [(a, 1)]

def Dist.bind {α β : Type} : Dist α → (α → Dist β) → Dist β
  | [], _ => []
  | (a, w) :: rest, f => ((f a).map fun bq => (bq.1, w * bq.2)) ++ Dist.bind rest f

/-- Expected value of a rational-valued function under a distribution. -/
def Dist.expVal {α : Type} (d : Dist α) (F : α → Rat) : Rat :=
  (d.map fun aw => aw.2 * F aw.1).sum

/-- Probability of a Boolean event. -/
def Dist.probOf {α : Type} (d : Dist α) (p : α → Bool) : Rat :=
  d.expVal fun a => if p a then 1 else 0

/-- Two distributions are equivalent when they induce the same expectations
(hence the same event probabilities). -/
def Dist.EquivE {α : Type} (d e : Dist α) : Prop :=
  ∀ F : α → Rat, d.expVal F = e.expVal F

/-- `Random::Int(0, n)`: uniform over `0, …, n`. -/
def uniformInt (n : Nat) : Dist Nat :=
  (List.range (n + 1)).map fun k => (k, (1 : Rat) / (n + 1))

theorem Dist.expVal_pure {α : Type} (a : α) (F : α → Rat) :
    (Dist.pure a).expVal F = F a := by
  simp [Dist.pure, Dist.expVal]

theorem Dist.expVal_append {α : Type} (d1 d2 : Dist α) (F : α → Rat) :
    Dist.expVal (d1 ++ d2) F = d1.expVal F + d2.expVal F := by
  simp [Dist.expVal]

theorem Dist.expVal_mul {α : Type} (d : Dist α) (w : Rat) (F : α → Rat) :
    Dist.expVal (d.map fun bq => (bq.1, w * bq.2)) F = w * d.expVal F := by
  induction d with
  | nil => simp [Dist.expVal]
  | cons bq rest ih =>
      simp only [List.map_cons, Dist.expVal, List.sum_cons] at *
      rw [ih]
      ring

theorem Dist.expVal_bind {α β : Type} (d : Dist α) (f : α → Dist β) (F : β → Rat) :
    Dist.expVal (d.bind f) F
      = d.expVal fun a => (f a).expVal F := by
  induction d with
  | nil => simp [Dist.bind, Dist.expVal]
  | cons aw rest ih =>
      obtain ⟨a, w⟩ := aw
      show Dist.expVal ((((f a).map fun bq => (bq.1, w * bq.2))) ++ Dist.bind rest f) F = _
      rw [Dist.expVal_append, Dist.expVal_mul, ih]
      simp [Dist.expVal]

theorem Dist.EquivE_bind_left {α β : Type} {d e : Dist α} (h : Dist.EquivE d e)
    (f : α → Dist β) : Dist.EquivE (d.bind f) (e.bind f) := by
  intro F
  rw [Dist.expVal_bind, Dist.expVal_bind]
  exact h _

theorem sum_map_add {γ : Type} (l : List γ) (f g : γ → Rat) :
    (l.map fun x => f x + g x).sum = (l.map f).sum + (l.map g).sum := by
  induction l with
  | nil => simp
  | cons x xs ih => simp [ih]; ring

theorem sum_map_mul {γ : Type} (l : List γ) (q : Rat) (f : γ → Rat) :
    (l.map fun x => q * f x).sum = q * (l.map f).sum := by
  induction l with
  | nil => simp
  | cons x xs ih => simp [ih]; ring

theorem sum_map_const_of {γ : Type} (l : List γ) (f : γ → Rat) (v : Rat)
    (h : ∀ x ∈ l, f x = v) : (l.map f).sum = l.length * v := by
  induction l with
  | nil => simp
  | cons x xs ih =>
      simp only [List.map_cons, List.sum_cons, List.length_cons]
      rw [h x (by simp), ih fun y hy => h y (by simp [hy])]
      push_cast
      ring

theorem Dist.expVal_map_uniform {γ α : Type} (W : List γ) (g : γ → α) (q : Rat)
    (F : α → Rat) :
    Dist.expVal (W.map fun w => (g w, q)) F = q * (W.map fun w => F (g w)).sum := by
  induction W with
  | nil => simp [Dist.expVal]
  | cons w ws ih =>
      simp only [List.map_cons, Dist.expVal, List.sum_cons] at *
      rw [ih]
      ring

theorem Dist.expVal_uniformInt (n : Nat) (G : Nat → Rat) :
    (uniformInt n).expVal G
      = (1 / ((n : Rat) + 1)) * ((List.range (n + 1)).map G).sum := by
  have := Dist.expVal_map_uniform (List.range (n + 1)) (fun k => k)
    ((1 : Rat) / (n + 1)) G
  simpa [uniformInt] using this

/-- The state of the `SelectBest` reservoir: the running best evaluated move
and the number of ties seen at the current best cost. -/
structure ReservoirState (Move : Type) where
  best_move : Move × Int
  number_of_bests : Nat
deriving Repr, DecidableEq

/-- The body of the `SelectBest` loop for one explored move (run under the
spin mutex): if the move is accepted, take it when the reservoir is empty or
the cost strictly improves (resetting the tie count to one); on a cost tie,
replace the running best with probability `1 / (1 + number_of_bests)` via
`Random::Int(0, number_of_bests) == 0` and increment the tie count. -/
def selectBestStep {Move : Type} (AcceptMove : Move → Int → Bool)
    (s : ReservoirState Move) (mv : Move × Int) : Dist (ReservoirState Move) :=
  if AcceptMove mv.1 mv.2 then
    if s.number_of_bests = 0 then Dist.pure ⟨mv, 1⟩
    else if mv.2 < s.best_move.2 then Dist.pure ⟨mv, 1⟩
    else if mv.2 = s.best_move.2 then
      Dist.bind (uniformInt s.number_of_bests) fun r =>
        Dist.pure ⟨if r = 0 then mv else s.best_move, s.number_of_bests + 1⟩
    else Dist.pure s
  else Dist.pure s

/-- The whole `SelectBest` reservoir loop over the presented move stream;
`d0` is the default-constructed `EvaluatedMove` the C++ starts from. -/
def selectBestRun {Move : Type} (AcceptMove : Move → Int → Bool) (d0 : Move × Int)
    (moves : List (Move × Int)) : Dist (ReservoirState Move) :=
  moves.foldl (fun d mv => d.bind fun s => selectBestStep AcceptMove s mv)
    (Dist.pure ⟨d0, 0⟩)

/-- `ParallelNeighborhoodExplorer::SelectBest` (and `RandomBest`, which runs
the same update over sampled moves): the empty sentinel when no move was
accepted, otherwise the reservoir content. -/
def SelectBest {Move : Type} (AcceptMove : Move → Int → Bool) (d0 : Move × Int)
    (moves : List (Move × Int)) : Dist (Option (Move × Int)) :=
  (selectBestRun AcceptMove d0 moves).bind fun s =>
    Dist.pure (if s.number_of_bests = 0 then none else some s.best_move)

/-- The accepted moves of the stream, in presentation order. -/
def acceptedMoves {Move : Type} (AcceptMove : Move → Int → Bool)
    (moves : List (Move × Int)) : List (Move × Int) :=
  moves.filter fun mv => AcceptMove mv.1 mv.2

/-- `c` is the minimum delta cost over the list `A`. -/
def MinSpec {Move : Type} (A : List (Move × Int)) (c : Int) : Prop :=
  (∀ x ∈ A, c ≤ x.2) ∧ c ∈ A.map Prod.snd

/-- The accepted moves tied at cost `c`. -/
def tiedBest {Move : Type} (A : List (Move × Int)) (c : Int) : List (Move × Int) :=
  A.filter fun mv => decide (mv.2 = c)

/-- The canonical reservoir distribution: uniform over the tied best moves,
each held with the tie count. -/
def canonRes {Move : Type} (A : List (Move × Int)) (c : Int) :
    Dist (ReservoirState Move) :=
  (tiedBest A c).map fun w =>
    (⟨w, (tiedBest A c).length⟩, 1 / ((tiedBest A c).length : Rat))

theorem MinSpec_exists {Move : Type} (A : List (Move × Int)) (h : A ≠ []) :
    ∃ c, MinSpec A c := by
  induction A with
  | nil => exact absurd rfl h
  | cons x xs ih =>
      rcases List.eq_nil_or_concat xs with hnil | _
      · subst hnil
        exact ⟨x.2, fun y hy => by simp at hy; simp [hy], by simp⟩
      · obtain ⟨c, hc1, hc2⟩ := ih (by
          intro hx
          subst hx
          simp at *)
        refine ⟨min c x.2, fun y hy => ?_, ?_⟩
        · rcases List.mem_cons.mp hy with rfl | hy'
          · exact min_le_right _ _
          · exact le_trans (min_le_left _ _) (hc1 y hy')
        · rcases le_total c x.2 with hle | hle
          · simp only [List.map_cons, List.mem_cons]
            right
            rwa [min_eq_left hle]
          · simp only [List.map_cons, List.mem_cons]
            left
            rw [min_eq_right hle]

theorem tiedBest_ne_nil {Move : Type} (A : List (Move × Int)) (c : Int)
    (h : MinSpec A c) : tiedBest A c ≠ [] := by
  obtain ⟨x, hx, hxc⟩ := List.mem_map.mp h.2
  have : x ∈ tiedBest A c := List.mem_filter.mpr ⟨hx, by simp [hxc]⟩
  intro hnil
  rw [hnil] at this
  cases this

theorem tiedBest_cost {Move : Type} (A : List (Move × Int)) (c : Int) :
    ∀ w ∈ tiedBest A c, w.2 = c := by
  intro w hw
  have := (List.mem_filter.mp hw).2
  simpa using this

theorem Dist.expVal_congr {α : Type} (d : Dist α) {F G : α → Rat}
    (h : ∀ a, F a = G a) : d.expVal F = d.expVal G := by
  unfold Dist.expVal
  congr 1
  exact List.map_congr_left fun aw _ => by rw [h]

theorem Dist.EquivE_bind_pure {α : Type} (d : Dist α) :
    Dist.EquivE (d.bind fun s => Dist.pure s) d := by
  intro F
  rw [Dist.expVal_bind]
  exact Dist.expVal_congr d fun a => Dist.expVal_pure a F

theorem Dist.EquivE_pure_bind {α β : Type} (a : α) (f : α → Dist β) :
    Dist.EquivE ((Dist.pure a).bind f) (f a) := by
  intro F
  rw [Dist.expVal_bind, Dist.expVal_pure]

theorem tiedBest_append {Move : Type} (A : List (Move × Int)) (c : Int)
    (mv : Move × Int) :
    tiedBest (A ++ [mv]) c
      = tiedBest A c ++ (if mv.2 = c then [mv] else []) := by
  unfold tiedBest
  rw [List.filter_append]
  congr 1
  by_cases h : mv.2 = c <;> simp [h]

/-- Reservoir step, new strict minimum: every mass moves to the new move
with tie count one. -/
theorem canon_step_new_min {Move : Type} (AcceptMove : Move → Int → Bool)
    (A : List (Move × Int)) (cA : Int) (mv : Move × Int)
    (hmin : MinSpec A cA) (hacc : AcceptMove mv.1 mv.2 = true)
    (hlt : mv.2 < cA) :
    Dist.EquivE ((canonRes A cA).bind fun s => selectBestStep AcceptMove s mv)
      (canonRes (A ++ [mv]) mv.2) := by
  intro F
  set W := tiedBest A cA with hW
  have hkpos : W ≠ [] := tiedBest_ne_nil A cA hmin
  have hk : (W.length : Rat) ≠ 0 := by
    have := List.length_pos.mpr hkpos
    positivity
  -- left-hand side
  rw [Dist.expVal_bind]
  unfold canonRes
  rw [← hW, Dist.expVal_map_uniform]
  have hstep : ∀ w ∈ W, Dist.expVal
      (selectBestStep AcceptMove ⟨w, W.length⟩ mv) F = F ⟨mv, 1⟩ := by
    intro w hw
    have hw2 : w.2 = cA := tiedBest_cost A cA w hw
    have hk0 : W.length ≠ 0 := fun h => hkpos (List.length_eq_zero.mp h)
    simp only [selectBestStep, hacc, if_true, hk0, if_false, hw2]
    rw [if_pos hlt, Dist.expVal_pure]
  rw [sum_map_const_of W _ (F ⟨mv, 1⟩) hstep]
  -- right-hand side
  have hempty : tiedBest A mv.2 = [] := by
    unfold tiedBest
    rw [List.filter_eq_nil]
    intro x hx
    have := hmin.1 x hx
    simp
    omega
  rw [tiedBest_append, hempty, if_pos rfl, List.nil_append]
  simp only [List.map_cons, List.map_nil, Dist.expVal, List.sum_cons,
    List.sum_nil, List.length_cons, List.length_nil]
  field_simp

/-- Reservoir step, cost tie: the reservoir stays uniform over the enlarged
tied set. -/
theorem canon_step_tie {Move : Type} (AcceptMove : Move → Int → Bool)
    (A : List (Move × Int)) (cA : Int) (mv : Move × Int)
    (hmin : MinSpec A cA) (hacc : AcceptMove mv.1 mv.2 = true)
    (heq : mv.2 = cA) :
    Dist.EquivE ((canonRes A cA).bind fun s => selectBestStep AcceptMove s mv)
      (canonRes (A ++ [mv]) cA) := by
  intro F
  set W := tiedBest A cA with hW
  have hkpos : W ≠ [] := tiedBest_ne_nil A cA hmin
  have hk0 : W.length ≠ 0 := fun h => hkpos (List.length_eq_zero.mp h)
  have hk : (W.length : Rat) ≠ 0 := by
    have := List.length_pos.mpr hkpos
    positivity
  have hk1 : ((W.length : Rat) + 1) ≠ 0 := by positivity
  rw [Dist.expVal_bind]
  unfold canonRes
  rw [← hW, Dist.expVal_map_uniform]
  have hstep : ∀ w ∈ W, Dist.expVal
      (selectBestStep AcceptMove ⟨w, W.length⟩ mv) F
      = (1 / ((W.length : Rat) + 1)) * (F ⟨mv, W.length + 1⟩
          + (W.length : Rat) * F ⟨w, W.length + 1⟩) := by
    intro w hw
    have hw2 : w.2 = cA := tiedBest_cost A cA w hw
    simp only [selectBestStep, hacc, if_true, hk0, if_false, hw2]
    rw [if_neg (by omega), if_pos heq, Dist.expVal_bind]
    have : ∀ r, Dist.expVal (Dist.pure
        (⟨if r = 0 then mv else w, W.length + 1⟩ : ReservoirState Move)) F
        = F ⟨if r = 0 then mv else w, W.length + 1⟩ := fun r => Dist.expVal_pure _ F
    rw [Dist.expVal_congr _ this, Dist.expVal_uniformInt]
    rw [List.range_succ_eq_map, List.map_cons, List.sum_cons, List.map_map]
    rw [sum_map_const_of (List.range W.length) _ (F ⟨w, W.length + 1⟩)
      (fun r _ => by simp [Function.comp, Nat.succ_ne_zero])]
    simp
  rw [List.map_congr_left hstep, sum_map_mul, sum_map_add,
    sum_map_const_of W _ (F ⟨mv, W.length + 1⟩) (fun _ _ => rfl), sum_map_mul]
  -- right-hand side
  rw [tiedBest_append, if_pos heq, ← hW]
  rw [Dist.expVal_map_uniform (W ++ [mv])]
  simp only [List.map_append, List.sum_append, List.length_append,
    List.map_cons, List.map_nil, List.sum_cons, List.sum_nil,
    List.length_cons, List.length_nil]
  push_cast
  field_simp
  ring

/-- Reservoir step, strictly worse accepted move: nothing changes. -/
theorem canon_step_worse {Move : Type} (AcceptMove : Move → Int → Bool)
    (A : List (Move × Int)) (cA : Int) (mv : Move × Int)
    (hmin : MinSpec A cA) (hacc : AcceptMove mv.1 mv.2 = true)
    (hgt : cA < mv.2) :
    Dist.EquivE ((canonRes A cA).bind fun s => selectBestStep AcceptMove s mv)
      (canonRes (A ++ [mv]) cA) := by
  intro F
  set W := tiedBest A cA with hW
  have hkpos : W ≠ [] := tiedBest_ne_nil A cA hmin
  have hk0 : W.length ≠ 0 := fun h => hkpos (List.length_eq_zero.mp h)
  rw [Dist.expVal_bind]
  unfold canonRes
  rw [← hW, Dist.expVal_map_uniform]
  have hstep : ∀ w ∈ W, Dist.expVal
      (selectBestStep AcceptMove ⟨w, W.length⟩ mv) F
      = F ⟨w, W.length⟩ := by
    intro w hw
    have hw2 : w.2 = cA := tiedBest_cost A cA w hw
    simp only [selectBestStep, hacc, if_true, hk0, if_false, hw2]
    rw [if_neg (by omega), if_neg (by omega), Dist.expVal_pure]
  rw [List.map_congr_left hstep]
  -- right-hand side
  rw [tiedBest_append, if_neg (by omega), List.append_nil, ← hW,
    Dist.expVal_map_uniform]

theorem Dist.EquivE_trans {α : Type} {d e f : Dist α}
    (h1 : Dist.EquivE d e) (h2 : Dist.EquivE e f) : Dist.EquivE d f :=
  fun F => (h1 F).trans (h2 F)

theorem selectBestRun_snoc {Move : Type} (AcceptMove : Move → Int → Bool)
    (d0 : Move × Int) (ms : List (Move × Int)) (mv : Move × Int) :
    selectBestRun AcceptMove d0 (ms ++ [mv])
      = (selectBestRun AcceptMove d0 ms).bind
          fun s => selectBestStep AcceptMove s mv := by
  unfold selectBestRun
  rw [List.foldl_append]
  rfl

theorem acceptedMoves_append {Move : Type} (AcceptMove : Move → Int → Bool)
    (ms : List (Move × Int)) (mv : Move × Int) :
    acceptedMoves AcceptMove (ms ++ [mv])
      = acceptedMoves AcceptMove ms
          ++ (if AcceptMove mv.1 mv.2 = true then [mv] else []) := by
  unfold acceptedMoves
  rw [List.filter_append]
  congr 1
  by_cases h : AcceptMove mv.1 mv.2 = true <;> simp [h]

theorem MinSpec_unique {Move : Type} {A : List (Move × Int)} {c c' : Int}
    (h : MinSpec A c) (h' : MinSpec A c') : c = c' := by
  obtain ⟨x, hx, hxc⟩ := List.mem_map.mp h.2
  obtain ⟨y, hy, hyc⟩ := List.mem_map.mp h'.2
  have := h.1 y hy
  have := h'.1 x hx
  omega

/-- Characterization of the `SelectBest` reservoir loop: with no accepted
move, the state is the untouched default with tie count zero; otherwise, the
reservoir is uniformly distributed over the tied minimum-cost accepted moves,
held with the tie count. -/
theorem selectBestRun_canon {Move : Type} (AcceptMove : Move → Int → Bool)
    (d0 : Move × Int) (moves : List (Move × Int)) :
    (acceptedMoves AcceptMove moves = [] →
      Dist.EquivE (selectBestRun AcceptMove d0 moves) (Dist.pure ⟨d0, 0⟩))
    ∧ ∀ c, MinSpec (acceptedMoves AcceptMove moves) c →
      Dist.EquivE (selectBestRun AcceptMove d0 moves)
        (canonRes (acceptedMoves AcceptMove moves) c) := by
  induction moves using List.reverseRecOn with
  | nil =>
      constructor
      · intro _ F; rfl
      · intro c hc
        exact absurd hc.2 (by simp [acceptedMoves])
  | append_singleton ms mv ih =>
      rw [selectBestRun_snoc, acceptedMoves_append]
      by_cases hacc : AcceptMove mv.1 mv.2 = true
      · rw [if_pos hacc]
        constructor
        · intro hnil
          exact absurd hnil (by simp)
        · intro c hc
          by_cases hA : acceptedMoves AcceptMove ms = []
          · rw [hA, List.nil_append] at hc ⊢
            have hcmv : c = mv.2 := by
              have := hc.2
              simp at this
              omega
            subst hcmv
            refine Dist.EquivE_trans
              (Dist.EquivE_bind_left (ih.1 hA) fun s => selectBestStep AcceptMove s mv)
              (Dist.EquivE_trans (Dist.EquivE_pure_bind _ _) ?_)
            have hstep : selectBestStep AcceptMove ⟨d0, 0⟩ mv = Dist.pure ⟨mv, 1⟩ := by
              simp [selectBestStep, hacc]
            rw [hstep]
            intro F
            rw [Dist.expVal_pure]
            simp [canonRes, tiedBest, Dist.expVal]
          · obtain ⟨cA, hminA⟩ := MinSpec_exists _ hA
            have hrun := Dist.EquivE_bind_left (ih.2 cA hminA)
              fun s => selectBestStep AcceptMove s mv
            rcases lt_trichotomy mv.2 cA with hlt | heq | hgt
            · have hc' : c = mv.2 := by
                refine MinSpec_unique hc ⟨fun x hx => ?_, by simp⟩
                rcases List.mem_append.mp hx with hx' | hx'
                · have := hminA.1 x hx'
                  omega
                · simp at hx'
                  subst hx'
                  omega
              subst hc'
              exact Dist.EquivE_trans hrun
                (canon_step_new_min AcceptMove _ cA mv hminA hacc hlt)
            · have hc' : c = cA := by
                refine MinSpec_unique hc ⟨fun x hx => ?_, ?_⟩
                · rcases List.mem_append.mp hx with hx' | hx'
                  · exact hminA.1 x hx'
                  · simp at hx'
                    subst hx'
                    omega
                · rw [List.map_append]
                  exact List.mem_append.mpr (Or.inl hminA.2)
              subst hc'
              exact Dist.EquivE_trans hrun
                (canon_step_tie AcceptMove _ c mv hminA hacc heq)
            · have hc' : c = cA := by
                refine MinSpec_unique hc ⟨fun x hx => ?_, ?_⟩
                · rcases List.mem_append.mp hx with hx' | hx'
                  · exact hminA.1 x hx'
                  · simp at hx'
                    subst hx'
                    omega
                · rw [List.map_append]
                  exact List.mem_append.mpr (Or.inl hminA.2)
              subst hc'
              exact Dist.EquivE_trans hrun
                (canon_step_worse AcceptMove _ c mv hminA hacc hgt)
      · rw [if_neg hacc, List.append_nil]
        have hstep : (fun s : ReservoirState Move => selectBestStep AcceptMove s mv)
            = fun s => Dist.pure s := by
          funext s
          simp [selectBestStep, hacc]
        rw [hstep]
        constructor
        · intro h
          exact Dist.EquivE_trans (Dist.EquivE_bind_pure _) (ih.1 h)
        · intro c hc
          exact Dist.EquivE_trans (Dist.EquivE_bind_pure _) (ih.2 c hc)

theorem sum_map_indicator_count {γ : Type} [DecidableEq γ] (l : List γ) (x : γ) :
    (l.map fun w => if w = x then (1 : Rat) else 0).sum
      = l.countP fun w => decide (w = x) := by
  induction l with
  | nil => simp
  | cons a as ih =>
      by_cases h : a = x <;>
        simp [h, ih, List.countP_cons] <;> push_cast <;> ring

/-- C2.  `SelectBest` (and `RandomBest`, which performs the same reservoir
update over the sampled move stream) returns the empty sentinel exactly when
no move is accepted; otherwise it returns an accepted move of minimum delta
cost, and each move in the tied-minimum set is returned with probability
`(its multiplicity) / k` where `k` is the number of tied accepted minima — in
particular each of `k` distinct tied bests is returned with probability
`1/k`, by reservoir sampling over `Random::Int`. -/
theorem select_best_min_and_uniform {Move : Type} [DecidableEq Move]
    (AcceptMove : Move → Int → Bool) (d0 : Move × Int)
    (moves : List (Move × Int)) :
    (acceptedMoves AcceptMove moves = [] →
        Dist.probOf (SelectBest AcceptMove d0 moves)
          (fun r => decide (r = none)) = 1)
    ∧ ∀ c, MinSpec (acceptedMoves AcceptMove moves) c →
        Dist.probOf (SelectBest AcceptMove d0 moves)
          (fun r => decide (r = none)) = 0
        ∧ ∀ x : Move × Int,
            Dist.probOf (SelectBest AcceptMove d0 moves)
              (fun r => decide (r = some x))
              = (((tiedBest (acceptedMoves AcceptMove moves) c).countP
                    fun w => decide (w = x)) : Rat)
                  / ((tiedBest (acceptedMoves AcceptMove moves) c).length : Rat) := by
  have hbind : ∀ p : Option (Move × Int) → Bool,
      Dist.probOf (SelectBest AcceptMove d0 moves) p
        = Dist.expVal (selectBestRun AcceptMove d0 moves)
            fun s => if p (if s.number_of_bests = 0 then none else some s.best_move)
              then 1 else 0 := by
    intro p
    unfold SelectBest Dist.probOf
    rw [Dist.expVal_bind]
    exact Dist.expVal_congr _ fun s => Dist.expVal_pure _ _
  constructor
  · intro hA
    rw [hbind]
    rw [(selectBestRun_canon AcceptMove d0 moves).1 hA]
    rw [Dist.expVal_pure]
    simp
  · intro c hc
    have hcanon := (selectBestRun_canon AcceptMove d0 moves).2 c hc
    set W := tiedBest (acceptedMoves AcceptMove moves) c with hW
    have hkpos : W ≠ [] := tiedBest_ne_nil _ c hc
    have hk0 : W.length ≠ 0 := fun h => hkpos (List.length_eq_zero.mp h)
    have hk : (W.length : Rat) ≠ 0 := by
      have := List.length_pos.mpr hkpos
      positivity
    constructor
    · rw [hbind, hcanon]
      unfold canonRes
      rw [← hW, Dist.expVal_map_uniform]
      rw [sum_map_const_of W _ 0 fun w _ => by simp [hk0]]
      simp
    · intro x
      rw [hbind, hcanon]
      unfold canonRes
      rw [← hW, Dist.expVal_map_uniform]
      have hpt : ∀ w ∈ W, (fun w => if decide ((if W.length = 0 then none
          else some w) = some x) = true then (1 : Rat) else 0) w
          = if w = x then (1 : Rat) else 0 := by
        intro w _
        show (if decide ((if W.length = 0 then none else some w) = some x) = true
            then (1 : Rat) else 0) = _
        rw [if_neg hk0]
        by_cases h : w = x <;> simp [h]
      rw [show (W.map fun w => if decide ((if ((⟨w, W.length⟩ : ReservoirState Move)).number_of_bests = 0 then none
          else some ((⟨w, W.length⟩ : ReservoirState Move)).best_move) = some x) = true then (1 : Rat) else 0)
          = W.map fun w => if w = x then (1 : Rat) else 0 from List.map_congr_left hpt]
      rw [sum_map_indicator_count]
      field_simp

theorem select_best_min_and_uniform_witness :
    Dist.probOf (@SelectBest Nat (fun _ c => decide (c ≤ 0)) (0, 0)
        [(1, -2), (2, 5), (3, -2)]) (fun r => decide (r = some (1, -2)))
      = 1 / 2 := by
  have h := ((select_best_min_and_uniform (fun _ c => decide (c ≤ 0)) (0, 0)
      [(1, -2), (2, 5), (3, -2)]).2 (-2)
      ⟨by decide, by decide⟩).2 (1, -2)
  rw [h]
  norm_num [tiedBest, acceptedMoves]

/-! ## Cartesian product explorer (multimodalneighborhoodexplorer.hh)

`CartesianProductNeighborhoodExplorer::FirstMove`/`RandomMove`/`NextMove` are
goto-based loops over a level counter `cur` with backtracking; they are
embedded as explicit small-step machines driven by fuel.  The C++ tuple of
`ActiveMove`s becomes a list, the level a list index; out-of-range accesses
(which the reachable C++ states never perform) read a default value. -/

instance {Move : Type} [Inhabited Move] : Inhabited (ActiveMove Move) :=
  ⟨⟨default, false⟩⟩

/-- A base explorer with no moves at all, used as the out-of-range default. -/
def BaseExplorer.dummy {State Move : Type} : BaseExplorer State Move :=
  ⟨fun _ => none, fun _ _ => none, fun _ => none, fun s _ => s,
    fun _ _ => DefaultCostStructure.empty⟩

/-- Write the raw move payload at a level (the base explorers receive a
`Move&` slice of the `ActiveMove`, so the `active` flag is untouched). -/
def setPayloadAt {Move : Type} [Inhabited Move] (moves : List (ActiveMove Move))
    (i : Nat) (mv : Move) : List (ActiveMove Move) :=
  moves.set i ⟨mv, (moves.getD i default).active⟩

/-- `Impl::MoveDispatcher::set_activity_at`. -/
def set_activity_at {Move : Type} [Inhabited Move] (moves : List (ActiveMove Move))
    (i : Nat) (b : Bool) : List (ActiveMove Move) :=
  moves.set i ⟨(moves.getD i default).move, b⟩

/-- Control location inside the chain-generation loops: the top of the outer
loop (with the `backtracking` flag), the relatedness test of the inner loop,
and the `NextMove` advancement. -/
inductive CPPhase where
  | visit : Bool → CPPhase
  | check : CPPhase
  | advance : CPPhase
deriving Repr, DecidableEq

structure CPMachine (State Move : Type) where
  cur : Int
  moves : List (ActiveMove Move)
  states : List State
  phase : CPPhase

/-- Fuel-bounded driver of a small-step machine: `none` when the fuel runs
out before the machine stops. -/
def cpRun {M R : Type} (step : M → Sum M R) : Nat → M → Option R
  | 0, _ => none
  | fuel + 1, m =>
      match step m with
      | Sum.inr r => some r
      | Sum.inl m' => cpRun step fuel m'

/-- One step of `CartesianProductNeighborhoodExplorer::FirstMove`.  At the
loop top the state at the current level is reset from the previous level (or
the input state); the non-backtracking branch generates the base's first move
(from the input state, as the C++ does), the backtracking branch directly
advances; the inner loop advances via `NextMove` until the move is related to
the previous level's move, backtracking on exhaustion; on success the move is
applied to the level state, marked active, and the level advances. -/
def cpFirstStep {State Move : Type} [Inhabited State] [Inhabited Move]
    (bases : List (BaseExplorer State Move))
    (related : Nat → State → Move → Move → Bool)
    (st : State) (m : CPMachine State Move) :
    Sum (CPMachine State Move) (Option (List (ActiveMove Move))) :=
  match m.phase with
  | .visit bk =>
      if m.cur = -1 then Sum.inr none
      else if m.cur ≥ (bases.length : Int) then Sum.inr (some m.moves)
      else
        let c := m.cur.toNat
        let prev : State := if m.cur > 0 then m.states.getD (c - 1) default else st
        let states' := m.states.set c prev
        match bk with
        | false =>
          match (bases.getD c BaseExplorer.dummy).FirstMove st with
          | some mv => Sum.inl ⟨m.cur, setPayloadAt m.moves c mv, states', .check⟩
          | none => Sum.inl ⟨m.cur - 1, set_activity_at m.moves c false, states', .visit true⟩
        | true => Sum.inl ⟨m.cur, m.moves, states', .advance⟩
  | .check =>
      let c := m.cur.toNat
      if m.cur > 0 ∧ related (c - 1) (m.states.getD (c - 1) default)
          ((m.moves.getD (c - 1) default).move) ((m.moves.getD c default).move) = false then
        Sum.inl ⟨m.cur, m.moves, m.states, .advance⟩
      else
        let s' := (bases.getD c BaseExplorer.dummy).MakeMove (m.states.getD c default)
          ((m.moves.getD c default).move)
        Sum.inl ⟨m.cur + 1, set_activity_at m.moves c true, m.states.set c s', .visit false⟩
  | .advance =>
      let c := m.cur.toNat
      match (bases.getD c BaseExplorer.dummy).NextMove (m.states.getD c default)
          ((m.moves.getD c default).move) with
      | some mv => Sum.inl ⟨m.cur, setPayloadAt m.moves c mv, m.states, .check⟩
      | none => Sum.inl ⟨m.cur - 1, set_activity_at m.moves c false, m.states, .visit true⟩

/-- `CartesianProductNeighborhoodExplorer::FirstMove`, run with the given
fuel: `some (some out)` on success, `some none` for `EmptyNeighborhood`. -/
def CPFirstMove {State Move : Type} [Inhabited State] [Inhabited Move]
    (bases : List (BaseExplorer State Move))
    (related : Nat → State → Move → Move → Bool)
    (st : State) (moves0 : List (ActiveMove Move)) (fuel : Nat) :
    Option (Option (List (ActiveMove Move))) :=
  cpRun (cpFirstStep bases related st) fuel
    ⟨0, moves0, List.replicate bases.length st, .visit false⟩

/-- The intermediate state of the chain: the input state with the first `n`
component moves applied in order. -/
def applyUpTo {State Move : Type} [Inhabited Move]
    (bases : List (BaseExplorer State Move)) (st : State)
    (moves : List (ActiveMove Move)) (n : Nat) : State :=
  (List.range n).foldl
    (fun s j => (bases.getD j BaseExplorer.dummy).MakeMove s ((moves.getD j default).move)) st

theorem applyUpTo_succ {State Move : Type} [Inhabited Move]
    (bases : List (BaseExplorer State Move)) (st : State)
    (moves : List (ActiveMove Move)) (n : Nat) :
    applyUpTo bases st moves (n + 1)
      = (bases.getD n BaseExplorer.dummy).MakeMove (applyUpTo bases st moves n)
          ((moves.getD n default).move) := by
  unfold applyUpTo
  rw [List.range_succ, List.foldl_append]
  rfl

theorem applyUpTo_congr {State Move : Type} [Inhabited Move]
    (bases : List (BaseExplorer State Move)) (st : State)
    {moves moves' : List (ActiveMove Move)} (n : Nat)
    (h : ∀ j < n, (moves.getD j default).move = (moves'.getD j default).move) :
    applyUpTo bases st moves n = applyUpTo bases st moves' n := by
  induction n with
  | zero => rfl
  | succ k ih =>
      rw [applyUpTo_succ, applyUpTo_succ, ih fun j hj => h j (by omega),
        h k (by omega)]

theorem getD_set_eq {α : Type} (l : List α) (i : Nat) (a d : α) (h : i < l.length) :
    (l.set i a).getD i d = a := by
  induction l generalizing i with
  | nil => simp at h
  | cons x xs ih =>
      cases i with
      | zero => rfl
      | succ j => exact ih j (by simpa using h)

theorem getD_set_ne {α : Type} (l : List α) (i j : Nat) (a d : α) (h : i ≠ j) :
    (l.set i a).getD j d = l.getD j d := by
  induction l generalizing i j with
  | nil => simp [List.set]
  | cons x xs ih =>
      cases i with
      | zero =>
          cases j with
          | zero => exact absurd rfl h
          | succ j' => rfl
      | succ i' =>
          cases j with
          | zero => rfl
          | succ j' => exact ih i' j' (by omega)

theorem setPayloadAt_move {Move : Type} [Inhabited Move]
    (moves : List (ActiveMove Move)) (i : Nat) (mv : Move) (j : Nat) (hj : j ≠ i) :
    ((setPayloadAt moves i mv).getD j default).move = ((moves.getD j default)).move := by
  unfold setPayloadAt
  rw [getD_set_ne _ _ _ _ _ fun h => hj h.symm]

theorem set_activity_at_move {Move : Type} [Inhabited Move]
    (moves : List (ActiveMove Move)) (i : Nat) (b : Bool) (j : Nat) :
    ((set_activity_at moves i b).getD j default).move = ((moves.getD j default)).move := by
  unfold set_activity_at
  by_cases h : i = j
  · subst h
    by_cases hlen : i < moves.length
    · rw [getD_set_eq _ _ _ _ hlen]
    · rw [List.set_eq_of_length_le (by omega)]
  · rw [getD_set_ne _ _ _ _ _ h]

/-- Levels `i < bound` are settled: the stored level state is the input state
with moves `0..i` applied. -/
def SettledOK {State Move : Type} [Inhabited State] [Inhabited Move]
    (bases : List (BaseExplorer State Move)) (st : State)
    (moves : List (ActiveMove Move)) (states : List State) (bound : Nat) : Prop :=
  ∀ i < bound, states.getD i default = applyUpTo bases st moves (i + 1)

/-- All consecutive pairs below `bound` satisfy the relatedness predicate,
evaluated (as the code does) on the settled state of the earlier level. -/
def PairsOK {State Move : Type} [Inhabited Move]
    (bases : List (BaseExplorer State Move))
    (related : Nat → State → Move → Move → Bool) (st : State)
    (moves : List (ActiveMove Move)) (bound : Nat) : Prop :=
  ∀ i, i + 1 < bound →
    related i (applyUpTo bases st moves (i + 1))
      ((moves.getD i default).move) ((moves.getD (i + 1) default).move) = true

/-- The loop invariant of the chain-generation machines. -/
def CPInv {State Move : Type} [Inhabited State] [Inhabited Move]
    (bases : List (BaseExplorer State Move))
    (related : Nat → State → Move → Move → Bool) (st : State)
    (m : CPMachine State Move) : Prop :=
  m.moves.length = bases.length ∧
  m.states.length = bases.length ∧
  -1 ≤ m.cur ∧
  SettledOK bases st m.moves m.states m.cur.toNat ∧
  PairsOK bases related st m.moves m.cur.toNat ∧
  (match m.phase with
   | .visit _ => m.cur ≤ (bases.length : Int)
   | .check => 0 ≤ m.cur ∧ m.cur < (bases.length : Int) ∧
       m.states.getD m.cur.toNat default = applyUpTo bases st m.moves m.cur.toNat
   | .advance => 0 ≤ m.cur ∧ m.cur < (bases.length : Int) ∧
       m.states.getD m.cur.toNat default = applyUpTo bases st m.moves m.cur.toNat)

theorem SettledOK_payload {State Move : Type} [Inhabited State] [Inhabited Move]
    {bases : List (BaseExplorer State Move)} {st : State}
    {moves moves' : List (ActiveMove Move)} {states : List State} {bound : Nat}
    (h : SettledOK bases st moves states bound)
    (hmv : ∀ j < bound, (moves'.getD j default).move = (moves.getD j default).move) :
    SettledOK bases st moves' states bound := by
  intro i hi
  rw [h i hi]
  exact applyUpTo_congr bases st (i + 1) fun j hj => (hmv j (by omega)).symm

theorem PairsOK_payload {State Move : Type} [Inhabited State] [Inhabited Move]
    {bases : List (BaseExplorer State Move)}
    {related : Nat → State → Move → Move → Bool} {st : State}
    {moves moves' : List (ActiveMove Move)} {bound : Nat}
    (h : PairsOK bases related st moves bound)
    (hmv : ∀ j < bound, (moves'.getD j default).move = (moves.getD j default).move) :
    PairsOK bases related st moves' bound := by
  intro i hi
  rw [applyUpTo_congr bases st (i + 1) fun j hj => hmv j (by omega),
    hmv i (by omega), hmv (i + 1) (by omega)]
  exact h i hi

theorem SettledOK_states_set {State Move : Type} [Inhabited State] [Inhabited Move]
    {bases : List (BaseExplorer State Move)} {st : State}
    {moves : List (ActiveMove Move)} {states : List State} {bound : Nat}
    (h : SettledOK bases st moves states bound) (c : Nat) (hc : bound ≤ c) (s : State) :
    SettledOK bases st moves (states.set c s) bound := by
  intro i hi
  rw [getD_set_ne _ _ _ _ _ (by omega)]
  exact h i hi

theorem SettledOK_mono {State Move : Type} [Inhabited State] [Inhabited Move]
    {bases : List (BaseExplorer State Move)} {st : State}
    {moves : List (ActiveMove Move)} {states : List State} {b b' : Nat}
    (h : SettledOK bases st moves states b) (hb : b' ≤ b) :
    SettledOK bases st moves states b' :=
  fun i hi => h i (by omega)

theorem PairsOK_mono {State Move : Type} [Inhabited State] [Inhabited Move]
    {bases : List (BaseExplorer State Move)}
    {related : Nat → State → Move → Move → Bool} {st : State}
    {moves : List (ActiveMove Move)} {b b' : Nat}
    (h : PairsOK bases related st moves b) (hb : b' ≤ b) :
    PairsOK bases related st moves b' :=
  fun i hi => h i (by omega)


theorem cpFirstStep_preserves {State Move : Type} [Inhabited State] [Inhabited Move]
    (bases : List (BaseExplorer State Move))
    (related : Nat → State → Move → Move → Bool) (st : State)
    (m : CPMachine State Move) (h : CPInv bases related st m) :
    (∀ m', cpFirstStep bases related st m = Sum.inl m' → CPInv bases related st m')
    ∧ (∀ out, cpFirstStep bases related st m = Sum.inr (some out) →
        out.length = bases.length ∧ PairsOK bases related st out bases.length) := by
  obtain ⟨cur, moves, states, phase⟩ := m
  obtain ⟨hml, hsl, hc1, hset, hpair, hph⟩ := h
  dsimp only at hml hsl hc1 hset hpair
  cases phase with
  | visit bk =>
      dsimp only [CPInv] at hph
      by_cases hneg : cur = -1
      · refine ⟨fun m' hm' => ?_, fun out hout => ?_⟩
        · rw [show cpFirstStep bases related st ⟨cur, moves, states, .visit bk⟩
              = Sum.inr none from by simp [cpFirstStep, hneg]] at hm'
          cases hm'
        · rw [show cpFirstStep bases related st ⟨cur, moves, states, .visit bk⟩
              = Sum.inr none from by simp [cpFirstStep, hneg]] at hout
          cases hout
      · by_cases hend : cur ≥ (bases.length : Int)
        · refine ⟨fun m' hm' => ?_, fun out hout => ?_⟩
          · rw [show cpFirstStep bases related st ⟨cur, moves, states, .visit bk⟩
                = Sum.inr (some moves) from by
                  simp [cpFirstStep, hneg, hend]] at hm'
            cases hm'
          · rw [show cpFirstStep bases related st ⟨cur, moves, states, .visit bk⟩
                = Sum.inr (some moves) from by
                  simp [cpFirstStep, hneg, hend]] at hout
            obtain rfl : moves = out := by
              injection hout with h1
              injection h1
            have hcl : cur.toNat = bases.length := by omega
            exact ⟨hml, hcl ▸ hpair⟩
        · have hcur0 : 0 ≤ cur := by omega
          have hcurN : cur < (bases.length : Int) := by omega
          have hcN : cur.toNat < bases.length := by omega
          have hprev : (if cur > 0 then states.getD (cur.toNat - 1) default else st)
              = applyUpTo bases st moves cur.toNat := by
            by_cases h0 : cur > 0
            · rw [if_pos h0, hset (cur.toNat - 1) (by omega)]
              congr 1
              omega
            · rw [if_neg h0, show cur.toNat = 0 from by omega]
              rfl
          refine ⟨fun m' hm' => ?_, fun out hout => ?_⟩
          · cases bk with
            | false =>
                rcases hfm : (bases.getD cur.toNat BaseExplorer.dummy).FirstMove st
                  with _ | mv
                · rw [show cpFirstStep bases related st ⟨cur, moves, states, .visit false⟩
                      = Sum.inl ⟨cur - 1, set_activity_at moves cur.toNat false,
                          states.set cur.toNat
                            (if cur > 0 then states.getD (cur.toNat - 1) default else st),
                          .visit true⟩ from by
                        simp only [cpFirstStep, if_neg hneg, if_neg hend, hfm]] at hm'
                  obtain rfl := Sum.inl.inj hm'
                  have hmv : ∀ j, ((set_activity_at moves cur.toNat false).getD j default).move
                      = ((moves.getD j default)).move :=
                    fun j => set_activity_at_move _ _ _ j
                  unfold CPInv
                  dsimp only
                  refine ⟨by simp [set_activity_at, hml], by simp [hsl], by omega,
                    ?_, ?_, by omega⟩
                  · have hb : (cur - 1).toNat ≤ cur.toNat := by omega
                    exact SettledOK_payload
                      (SettledOK_states_set (SettledOK_mono hset hb) cur.toNat (by omega) _)
                      (fun j _ => hmv j)
                  · exact PairsOK_payload (PairsOK_mono hpair (by omega)) (fun j _ => hmv j)
                · rw [show cpFirstStep bases related st ⟨cur, moves, states, .visit false⟩
                      = Sum.inl ⟨cur, setPayloadAt moves cur.toNat mv,
                          states.set cur.toNat
                            (if cur > 0 then states.getD (cur.toNat - 1) default else st),
                          .check⟩ from by
                        simp only [cpFirstStep, if_neg hneg, if_neg hend, hfm]] at hm'
                  obtain rfl := Sum.inl.inj hm'
                  have hmv : ∀ j < cur.toNat,
                      ((setPayloadAt moves cur.toNat mv).getD j default).move
                      = ((moves.getD j default)).move :=
                    fun j hj => setPayloadAt_move _ _ _ j (by omega)
                  unfold CPInv
                  dsimp only
                  refine ⟨by simp [setPayloadAt, hml], by simp [hsl], by omega, ?_, ?_,
                    by omega, by omega, ?_⟩
                  · exact SettledOK_payload
                      (SettledOK_states_set hset cur.toNat (by omega) _) hmv
                  · exact PairsOK_payload hpair fun j hj => hmv j (by omega)
                  · rw [getD_set_eq _ _ _ _ (by omega), hprev]
                    exact applyUpTo_congr bases st cur.toNat fun j hj => (hmv j hj).symm
            | true =>
                rw [show cpFirstStep bases related st ⟨cur, moves, states, .visit true⟩
                    = Sum.inl ⟨cur, moves,
                        states.set cur.toNat
                          (if cur > 0 then states.getD (cur.toNat - 1) default else st),
                        .advance⟩ from by
                      simp only [cpFirstStep, if_neg hneg, if_neg hend]] at hm'
                obtain rfl := Sum.inl.inj hm'
                unfold CPInv
                dsimp only
                refine ⟨hml, by simp [hsl], by omega, ?_, hpair, by omega, by omega, ?_⟩
                · exact SettledOK_states_set hset cur.toNat (by omega) _
                · rw [getD_set_eq _ _ _ _ (by omega)]
                  exact hprev
          · cases bk with
            | false =>
                rcases hfm : (bases.getD cur.toNat BaseExplorer.dummy).FirstMove st
                  with _ | mv <;>
                  simp only [cpFirstStep, if_neg hneg, if_neg hend, hfm] at hout <;>
                  cases hout
            | true =>
                simp only [cpFirstStep, if_neg hneg, if_neg hend] at hout
                cases hout
  | check =>
      dsimp only [CPInv] at hph
      obtain ⟨hcur0, hcurN, hlvl⟩ := hph
      have hcN : cur.toNat < bases.length := by omega
      by_cases hrel : cur > 0 ∧ related (cur.toNat - 1) (states.getD (cur.toNat - 1) default)
          ((moves.getD (cur.toNat - 1) default).move)
          ((moves.getD cur.toNat default).move) = false
      · refine ⟨fun m' hm' => ?_, fun out hout => ?_⟩
        · rw [show cpFirstStep bases related st ⟨cur, moves, states, .check⟩
              = Sum.inl ⟨cur, moves, states, .advance⟩ from by
                simp only [cpFirstStep, if_pos hrel]] at hm'
          obtain rfl := Sum.inl.inj hm'
          unfold CPInv
          dsimp only
          exact ⟨hml, hsl, by omega, hset, hpair, by omega, by omega, hlvl⟩
        · rw [show cpFirstStep bases related st ⟨cur, moves, states, .check⟩
              = Sum.inl ⟨cur, moves, states, .advance⟩ from by
                simp only [cpFirstStep, if_pos hrel]] at hout
          cases hout
      · refine ⟨fun m' hm' => ?_, fun out hout => ?_⟩
        · rw [show cpFirstStep bases related st ⟨cur, moves, states, .check⟩
              = Sum.inl ⟨cur + 1, set_activity_at moves cur.toNat true,
                  states.set cur.toNat
                    ((bases.getD cur.toNat BaseExplorer.dummy).MakeMove
                      (states.getD cur.toNat default)
                      ((moves.getD cur.toNat default).move)),
                  .visit false⟩ from by
                simp only [cpFirstStep, if_neg hrel]] at hm'
          obtain rfl := Sum.inl.inj hm'
          have hmv : ∀ j, ((set_activity_at moves cur.toNat true).getD j default).move
              = ((moves.getD j default)).move := fun j => set_activity_at_move _ _ _ j
          have hnew : (states.set cur.toNat
              ((bases.getD cur.toNat BaseExplorer.dummy).MakeMove
                (states.getD cur.toNat default)
                ((moves.getD cur.toNat default).move))).getD cur.toNat default
              = applyUpTo bases st moves (cur.toNat + 1) := by
            rw [getD_set_eq _ _ _ _ (by omega), hlvl, applyUpTo_succ]
          have htn : (cur + 1).toNat = cur.toNat + 1 := by omega
          unfold CPInv
          dsimp only
          rw [htn]
          refine ⟨by simp [set_activity_at, hml], by simp [hsl], by omega, ?_, ?_, by omega⟩
          · refine SettledOK_payload ?_ (fun j _ => hmv j)
            intro i hi
            rcases Nat.lt_or_ge i cur.toNat with hic | hic
            · rw [getD_set_ne _ _ _ _ _ (by omega)]
              exact hset i (by omega)
            · have : i = cur.toNat := by omega
              subst this
              exact hnew
          · refine PairsOK_payload ?_ (fun j _ => hmv j)
            intro i hi
            rcases Nat.lt_or_ge (i + 1) cur.toNat with hic | hic
            · exact hpair i (by omega)
            · have hieq : i + 1 = cur.toNat := by omega
              have hcpos : cur > 0 := by omega
              have hrt : related (cur.toNat - 1) (states.getD (cur.toNat - 1) default)
                  ((moves.getD (cur.toNat - 1) default).move)
                  ((moves.getD cur.toNat default).move) = true := by
                cases hre : related (cur.toNat - 1) (states.getD (cur.toNat - 1) default)
                  ((moves.getD (cur.toNat - 1) default).move)
                  ((moves.getD cur.toNat default).move) with
                | false => exact absurd ⟨hcpos, hre⟩ hrel
                | true => rfl
              have hstc : states.getD (cur.toNat - 1) default
                  = applyUpTo bases st moves cur.toNat := by
                rw [hset (cur.toNat - 1) (by omega)]
                congr 1
                omega
              have hii : i = cur.toNat - 1 := by omega
              subst hii
              rw [show cur.toNat - 1 + 1 = cur.toNat from by omega] at hieq ⊢
              rw [← hstc]
              exact hrt
        · rw [show cpFirstStep bases related st ⟨cur, moves, states, .check⟩
              = Sum.inl ⟨cur + 1, set_activity_at moves cur.toNat true,
                  states.set cur.toNat
                    ((bases.getD cur.toNat BaseExplorer.dummy).MakeMove
                      (states.getD cur.toNat default)
                      ((moves.getD cur.toNat default).move)),
                  .visit false⟩ from by
                simp only [cpFirstStep, if_neg hrel]] at hout
          cases hout
  | advance =>
      dsimp only [CPInv] at hph
      obtain ⟨hcur0, hcurN, hlvl⟩ := hph
      rcases hnm : (bases.getD cur.toNat BaseExplorer.dummy).NextMove
          (states.getD cur.toNat default)
          ((moves.getD cur.toNat default).move) with _ | mv
      · refine ⟨fun m' hm' => ?_, fun out hout => ?_⟩
        · rw [show cpFirstStep bases related st ⟨cur, moves, states, .advance⟩
              = Sum.inl ⟨cur - 1, set_activity_at moves cur.toNat false, states,
                  .visit true⟩ from by
                simp only [cpFirstStep, hnm]] at hm'
          obtain rfl := Sum.inl.inj hm'
          have hmv : ∀ j, ((set_activity_at moves cur.toNat false).getD j default).move
              = ((moves.getD j default)).move := fun j => set_activity_at_move _ _ _ j
          unfold CPInv
          dsimp only
          refine ⟨by simp [set_activity_at, hml], hsl, by omega, ?_, ?_, by omega⟩
          · exact SettledOK_payload (SettledOK_mono hset (by omega)) (fun j _ => hmv j)
          · exact PairsOK_payload (PairsOK_mono hpair (by omega)) (fun j _ => hmv j)
        · rw [show cpFirstStep bases related st ⟨cur, moves, states, .advance⟩
              = Sum.inl ⟨cur - 1, set_activity_at moves cur.toNat false, states,
                  .visit true⟩ from by
                simp only [cpFirstStep, hnm]] at hout
          cases hout
      · refine ⟨fun m' hm' => ?_, fun out hout => ?_⟩
        · rw [show cpFirstStep bases related st ⟨cur, moves, states, .advance⟩
              = Sum.inl ⟨cur, setPayloadAt moves cur.toNat mv, states, .check⟩ from by
                simp only [cpFirstStep, hnm]] at hm'
          obtain rfl := Sum.inl.inj hm'
          have hmv : ∀ j < cur.toNat,
              ((setPayloadAt moves cur.toNat mv).getD j default).move
              = ((moves.getD j default)).move :=
            fun j hj => setPayloadAt_move _ _ _ j (by omega)
          unfold CPInv
          dsimp only
          refine ⟨by simp [setPayloadAt, hml], hsl, by omega, ?_, ?_,
            by omega, by omega, ?_⟩
          · exact SettledOK_payload hset hmv
          · exact PairsOK_payload hpair fun j hj => hmv j (by omega)
          · rw [hlvl]
            exact applyUpTo_congr bases st cur.toNat fun j hj => (hmv j hj).symm
        · rw [show cpFirstStep bases related st ⟨cur, moves, states, .advance⟩
              = Sum.inl ⟨cur, setPayloadAt moves cur.toNat mv, states, .check⟩ from by
                simp only [cpFirstStep, hnm]] at hout
          cases hout

theorem cpRun_first_sound {State Move : Type} [Inhabited State] [Inhabited Move]
    (bases : List (BaseExplorer State Move))
    (related : Nat → State → Move → Move → Bool) (st : State)
    (fuel : Nat) (m : CPMachine State Move) (hInv : CPInv bases related st m)
    (out : List (ActiveMove Move))
    (h : cpRun (cpFirstStep bases related st) fuel m = some (some out)) :
    out.length = bases.length ∧ PairsOK bases related st out bases.length := by
  induction fuel generalizing m with
  | zero => cases h
  | succ n ih =>
      unfold cpRun at h
      rcases hstep : cpFirstStep bases related st m with m' | r
      · rw [hstep] at h
        exact ih m' ((cpFirstStep_preserves bases related st m hInv).1 m' hstep) h
      · rw [hstep] at h
        obtain rfl : r = some out := by injection h
        exact (cpFirstStep_preserves bases related st m hInv).2 out hstep

theorem CPInv_init {State Move : Type} [Inhabited State] [Inhabited Move]
    (bases : List (BaseExplorer State Move))
    (related : Nat → State → Move → Move → Bool) (st : State)
    (moves0 : List (ActiveMove Move)) (hlen : moves0.length = bases.length) :
    CPInv bases related st
      ⟨0, moves0, List.replicate bases.length st, .visit false⟩ := by
  unfold CPInv
  dsimp only
  refine ⟨hlen, by simp, by omega, ?_, ?_, by omega⟩
  · intro i hi
    simp at hi
  · intro i hi
    simp at hi

/-- The recursion of `DeltaCostFunctionComponents`: accumulate each base's
delta cost on the running intermediate state, then apply its move to that
state. -/
def cpDeltaAux {State Move : Type} :
    List (BaseExplorer State Move) → List (ActiveMove Move) → State →
      DefaultCostStructure → DefaultCostStructure
  | [], _, _, acc => acc
  | _ :: _, [], _, acc => acc
  | b :: bs, mv :: ms, s, acc =>
      cpDeltaAux bs ms (b.MakeMove s mv.move) (acc.add (b.DeltaCost s mv.move))

/-- `CartesianProductNeighborhoodExplorer::DeltaCostFunctionComponents`:
starting from a default-constructed cost structure, loop over the levels
threading the intermediate state. -/
def CPDeltaCostFunctionComponents {State Move : Type}
    (bases : List (BaseExplorer State Move)) (st : State)
    (moves : List (ActiveMove Move)) : DefaultCostStructure :=
  cpDeltaAux bases moves st DefaultCostStructure.empty

theorem applyUpTo_cons {State Move : Type} [Inhabited Move]
    (b : BaseExplorer State Move) (bases : List (BaseExplorer State Move))
    (st : State) (mv : ActiveMove Move) (moves : List (ActiveMove Move)) (i : Nat) :
    applyUpTo (b :: bases) st (mv :: moves) (i + 1)
      = applyUpTo bases (b.MakeMove st mv.move) moves i := by
  induction i with
  | zero => rfl
  | succ k ih =>
      rw [applyUpTo_succ (b :: bases) st (mv :: moves) (k + 1), ih,
        applyUpTo_succ bases (b.MakeMove st mv.move) moves k]
      rfl

theorem cpDeltaAux_spec {State Move : Type} [Inhabited Move]
    (bases : List (BaseExplorer State Move)) (moves : List (ActiveMove Move))
    (st : State) (acc : DefaultCostStructure)
    (hlen : moves.length = bases.length) :
    cpDeltaAux bases moves st acc
      = ((List.range bases.length).map fun i =>
          (bases.getD i BaseExplorer.dummy).DeltaCost (applyUpTo bases st moves i)
            ((moves.getD i default).move)).foldl DefaultCostStructure.add acc := by
  induction bases generalizing moves st acc with
  | nil =>
      rw [List.length_eq_zero.mp hlen]
      rfl
  | cons b bs ih =>
      cases moves with
      | nil => simp at hlen
      | cons mv ms =>
          show cpDeltaAux bs ms (b.MakeMove st mv.move) (acc.add (b.DeltaCost st mv.move)) = _
          rw [ih ms (b.MakeMove st mv.move) _ (by simpa using hlen)]
          rw [show (b :: bs).length = bs.length + 1 from rfl, List.range_succ_eq_map,
            List.map_cons, List.foldl_cons, List.map_map]
          congr 1
          · refine List.map_congr_left fun i _ => ?_
            simp only [Function.comp_apply]
            show (bs.getD i BaseExplorer.dummy).DeltaCost
                (applyUpTo bs (b.MakeMove st mv.move) ms i) ((ms.getD i default).move)
                = ((b :: bs).getD (i + 1) BaseExplorer.dummy).DeltaCost
                    (applyUpTo (b :: bs) st (mv :: ms) (i + 1))
                    (((mv :: ms).getD (i + 1) default).move)
            rw [applyUpTo_cons]
            rfl

/-- Delta-cost part of the chain claim: the composite delta cost equals the
accumulated sum over levels `i` of base `i`'s delta cost evaluated at the
intermediate state with moves `0..i-1` applied. -/
theorem cp_delta_is_sum {State Move : Type} [Inhabited Move]
    (bases : List (BaseExplorer State Move)) (st : State)
    (moves : List (ActiveMove Move)) (hlen : moves.length = bases.length) :
    CPDeltaCostFunctionComponents bases st moves
      = ((List.range bases.length).map fun i =>
          (bases.getD i BaseExplorer.dummy).DeltaCost (applyUpTo bases st moves i)
            ((moves.getD i default).move)).foldl DefaultCostStructure.add
          DefaultCostStructure.empty :=
  cpDeltaAux_spec bases moves st DefaultCostStructure.empty hlen

/-- `Impl::MoveDispatcher::copy_move_at` as written in the source: both the
assigned reference (`this_target`) and the assigned value (`this_source`) are
read from `target` (`const auto &this_source = std::get<0>(target).get();`),
so the call leaves the target tuple unchanged and the source tuple is never
read. -/
def copy_move_at {Move : Type} [Inhabited Move]
    (target _source : List (ActiveMove Move)) (level : Nat) :
    List (ActiveMove Move) :=
  target.set level (target.getD level default)

/-- The assignment `copy_move_at` evidently intends (reading the level move
from `source`), per the commented-out original
`kick[cur].first.move == initial_kick_moves[cur]` logic it replaces. -/
def copy_move_at_intended {Move : Type} [Inhabited Move]
    (target source : List (ActiveMove Move)) (level : Nat) :
    List (ActiveMove Move) :=
  target.set level (source.getD level default)

theorem copy_move_at_id {Move : Type} [Inhabited Move]
    (target source : List (ActiveMove Move)) (level : Nat) :
    copy_move_at target source level = target := by
  unfold copy_move_at
  induction target generalizing level with
  | nil => rfl
  | cons x xs ih =>
      cases level with
      | zero => rfl
      | succ l => simpa [List.set, List.getD] using ih l

/-- Control location inside `RandomMove`: as for `FirstMove`, plus a flag on
the search phases telling whether the loop body sits inside the `try` block
(the non-backtracking branch) — an `EmptyNeighborhood` from the wrap-around
`FirstMove` is caught and backtracks there, while in the backtracking branch
it propagates out of `RandomMove`. -/
inductive CPRPhase where
  | visit : Bool → CPRPhase
  | check : Bool → CPRPhase
  | advance : Bool → CPRPhase
deriving Repr, DecidableEq

structure CPRMachine (State Move : Type) where
  cur : Int
  moves : List (ActiveMove Move)
  states : List State
  initial_moves : List (ActiveMove Move)
  initial_set : List Bool
  phase : CPRPhase

/-- One step of `CartesianProductNeighborhoodExplorer::RandomMove`,
parameterized by the `copy` used to remember the first drawn move at each
level (the source's `copy_move_at`, or the intended version).  A freshly
generated or advanced move is compared against the remembered initial move
with `ActiveMove`'s `operator==`; on a match the level is exhausted and the
machine backtracks. -/
def cpRandomStep {State Move : Type} [Inhabited State] [Inhabited Move]
    (bases : List (BaseExplorer State Move))
    (related : Nat → State → Move → Move → Bool)
    (eqm : Move → Move → Bool)
    (copy : List (ActiveMove Move) → List (ActiveMove Move) → Nat → List (ActiveMove Move))
    (st : State) (m : CPRMachine State Move) :
    Sum (CPRMachine State Move) (Option (List (ActiveMove Move))) :=
  match m.phase with
  | .visit bk =>
      if m.cur = -1 then Sum.inr none
      else if m.cur ≥ (bases.length : Int) then Sum.inr (some m.moves)
      else
        let c := m.cur.toNat
        let prev : State := if m.cur > 0 then m.states.getD (c - 1) default else st
        let states' := m.states.set c prev
        match bk with
        | false =>
          match (bases.getD c BaseExplorer.dummy).RandomMove prev with
          | some mv =>
              let moves' := setPayloadAt m.moves c mv
              if m.initial_set.getD c false = false then
                Sum.inl ⟨m.cur, moves', states', copy m.initial_moves moves' c,
                  m.initial_set.set c true, .check true⟩
              else
                Sum.inl ⟨m.cur, moves', states', m.initial_moves, m.initial_set,
                  .check true⟩
          | none =>
              Sum.inl ⟨m.cur - 1, set_activity_at m.moves c false, states',
                m.initial_moves, m.initial_set, .visit true⟩
        | true =>
            Sum.inl ⟨m.cur, m.moves, states', m.initial_moves, m.initial_set,
              .advance false⟩
  | .check intry =>
      let c := m.cur.toNat
      if m.cur > 0 ∧ related (c - 1) (m.states.getD (c - 1) default)
          ((m.moves.getD (c - 1) default).move) ((m.moves.getD c default).move) = false then
        Sum.inl ⟨m.cur, m.moves, m.states, m.initial_moves, m.initial_set,
          .advance intry⟩
      else
        let s' := (bases.getD c BaseExplorer.dummy).MakeMove (m.states.getD c default)
          ((m.moves.getD c default).move)
        Sum.inl ⟨m.cur + 1, set_activity_at m.moves c true, m.states.set c s',
          m.initial_moves, m.initial_set, .visit false⟩
  | .advance intry =>
      let c := m.cur.toNat
      match (bases.getD c BaseExplorer.dummy).NextMove (m.states.getD c default)
          ((m.moves.getD c default).move) with
      | some mv =>
          let moves' := setPayloadAt m.moves c mv
          if activeMoveEq eqm (moves'.getD c default)
              (m.initial_moves.getD c default) = true then
            Sum.inl ⟨m.cur - 1, set_activity_at moves' c false, m.states,
              m.initial_moves, m.initial_set, .visit true⟩
          else
            Sum.inl ⟨m.cur, moves', m.states, m.initial_moves, m.initial_set,
              .check intry⟩
      | none =>
          match (bases.getD c BaseExplorer.dummy).FirstMove st with
          | some mv =>
              let moves' := setPayloadAt m.moves c mv
              if activeMoveEq eqm (moves'.getD c default)
                  (m.initial_moves.getD c default) = true then
                Sum.inl ⟨m.cur - 1, set_activity_at moves' c false, m.states,
                  m.initial_moves, m.initial_set, .visit true⟩
              else
                Sum.inl ⟨m.cur, moves', m.states, m.initial_moves, m.initial_set,
                  .check intry⟩
          | none =>
              match intry with
              | true =>
                  Sum.inl ⟨m.cur - 1, set_activity_at m.moves c false, m.states,
                    m.initial_moves, m.initial_set, .visit true⟩
              | false => Sum.inr none

/-- `CartesianProductNeighborhoodExplorer::RandomMove`, with the source's
`copy_move_at` and `ActiveMove` equality over the payload equality `eqm`;
`initial_moves` starts value-initialized (inactive, default payloads) and
`initial_set` all-false, as in the C++. -/
def CPRandomMove {State Move : Type} [Inhabited State] [Inhabited Move]
    (bases : List (BaseExplorer State Move))
    (related : Nat → State → Move → Move → Bool)
    (eqm : Move → Move → Bool)
    (st : State) (moves0 : List (ActiveMove Move)) (fuel : Nat) :
    Option (Option (List (ActiveMove Move))) :=
  cpRun (cpRandomStep bases related eqm copy_move_at st) fuel
    ⟨0, moves0, List.replicate bases.length st,
      List.replicate bases.length default, List.replicate bases.length false,
      .visit false⟩

/-- The loop invariant of `RandomMove`, identical to the `FirstMove` one (the
initial-move bookkeeping does not participate). -/
def CPRInv {State Move : Type} [Inhabited State] [Inhabited Move]
    (bases : List (BaseExplorer State Move))
    (related : Nat → State → Move → Move → Bool) (st : State)
    (m : CPRMachine State Move) : Prop :=
  m.moves.length = bases.length ∧
  m.states.length = bases.length ∧
  -1 ≤ m.cur ∧
  SettledOK bases st m.moves m.states m.cur.toNat ∧
  PairsOK bases related st m.moves m.cur.toNat ∧
  (match m.phase with
   | .visit _ => m.cur ≤ (bases.length : Int)
   | .check _ => 0 ≤ m.cur ∧ m.cur < (bases.length : Int) ∧
       m.states.getD m.cur.toNat default = applyUpTo bases st m.moves m.cur.toNat
   | .advance _ => 0 ≤ m.cur ∧ m.cur < (bases.length : Int) ∧
       m.states.getD m.cur.toNat default = applyUpTo bases st m.moves m.cur.toNat)

theorem cpRandomStep_preserves {State Move : Type} [Inhabited State] [Inhabited Move]
    (bases : List (BaseExplorer State Move))
    (related : Nat → State → Move → Move → Bool)
    (eqm : Move → Move → Bool)
    (copy : List (ActiveMove Move) → List (ActiveMove Move) → Nat → List (ActiveMove Move))
    (st : State) (m : CPRMachine State Move) (h : CPRInv bases related st m) :
    (∀ m', cpRandomStep bases related eqm copy st m = Sum.inl m' →
        CPRInv bases related st m')
    ∧ (∀ out, cpRandomStep bases related eqm copy st m = Sum.inr (some out) →
        out.length = bases.length ∧ PairsOK bases related st out bases.length) := by
  obtain ⟨cur, moves, states, imoves, iset, phase⟩ := m
  obtain ⟨hml, hsl, hc1, hset, hpair, hph⟩ := h
  dsimp only at hml hsl hc1 hset hpair
  cases phase with
  | visit bk =>
      dsimp only [CPRInv] at hph
      by_cases hneg : cur = -1
      · refine ⟨fun m' hm' => ?_, fun out hout => ?_⟩
        · rw [show cpRandomStep bases related eqm copy st
              ⟨cur, moves, states, imoves, iset, .visit bk⟩ = Sum.inr none from by
                simp [cpRandomStep, hneg]] at hm'
          cases hm'
        · rw [show cpRandomStep bases related eqm copy st
              ⟨cur, moves, states, imoves, iset, .visit bk⟩ = Sum.inr none from by
                simp [cpRandomStep, hneg]] at hout
          cases hout
      · by_cases hend : cur ≥ (bases.length : Int)
        · refine ⟨fun m' hm' => ?_, fun out hout => ?_⟩
          · rw [show cpRandomStep bases related eqm copy st
                ⟨cur, moves, states, imoves, iset, .visit bk⟩
                = Sum.inr (some moves) from by simp [cpRandomStep, hneg, hend]] at hm'
            cases hm'
          · rw [show cpRandomStep bases related eqm copy st
                ⟨cur, moves, states, imoves, iset, .visit bk⟩
                = Sum.inr (some moves) from by simp [cpRandomStep, hneg, hend]] at hout
            obtain rfl : moves = out := by
              injection hout with h1
              injection h1
            have hcl : cur.toNat = bases.length := by omega
            exact ⟨hml, hcl ▸ hpair⟩
        · have hcur0 : 0 ≤ cur := by omega
          have hcN : cur.toNat < bases.length := by omega
          have hprev : (if cur > 0 then states.getD (cur.toNat - 1) default else st)
              = applyUpTo bases st moves cur.toNat := by
            by_cases h0 : cur > 0
            · rw [if_pos h0, hset (cur.toNat - 1) (by omega)]
              congr 1
              omega
            · rw [if_neg h0, show cur.toNat = 0 from by omega]
              rfl
          refine ⟨fun m' hm' => ?_, fun out hout => ?_⟩
          · cases bk with
            | false =>
                rcases hfm : (bases.getD cur.toNat BaseExplorer.dummy).RandomMove
                    (if cur > 0 then states.getD (cur.toNat - 1) default else st)
                  with _ | mv
                · rw [show cpRandomStep bases related eqm copy st
                      ⟨cur, moves, states, imoves, iset, .visit false⟩
                      = Sum.inl ⟨cur - 1, set_activity_at moves cur.toNat false,
                          states.set cur.toNat
                            (if cur > 0 then states.getD (cur.toNat - 1) default else st),
                          imoves, iset, .visit true⟩ from by
                        simp only [cpRandomStep, if_neg hneg, if_neg hend, hfm]] at hm'
                  obtain rfl := Sum.inl.inj hm'
                  have hmv : ∀ j, ((set_activity_at moves cur.toNat false).getD j default).move
                      = ((moves.getD j default)).move :=
                    fun j => set_activity_at_move _ _ _ j
                  unfold CPRInv
                  dsimp only
                  refine ⟨by simp [set_activity_at, hml], by simp [hsl], by omega,
                    ?_, ?_, by omega⟩
                  · exact SettledOK_payload
                      (SettledOK_states_set (SettledOK_mono hset (by omega)) cur.toNat
                        (by omega) _) (fun j _ => hmv j)
                  · exact PairsOK_payload (PairsOK_mono hpair (by omega)) (fun j _ => hmv j)
                · have hgoal : ∀ im' is',
                      CPRInv bases related st
                        ⟨cur, setPayloadAt moves cur.toNat mv,
                          states.set cur.toNat
                            (if cur > 0 then states.getD (cur.toNat - 1) default else st),
                          im', is', .check true⟩ := by
                    intro im' is'
                    have hmv : ∀ j < cur.toNat,
                        ((setPayloadAt moves cur.toNat mv).getD j default).move
                        = ((moves.getD j default)).move :=
                      fun j hj => setPayloadAt_move _ _ _ j (by omega)
                    unfold CPRInv
                    dsimp only
                    refine ⟨by simp [setPayloadAt, hml], by simp [hsl], by omega, ?_, ?_,
                      by omega, by omega, ?_⟩
                    · exact SettledOK_payload
                        (SettledOK_states_set hset cur.toNat (by omega) _) hmv
                    · exact PairsOK_payload hpair fun j hj => hmv j (by omega)
                    · rw [getD_set_eq _ _ _ _ (by omega), hprev]
                      exact applyUpTo_congr bases st cur.toNat fun j hj => (hmv j hj).symm
                  by_cases hins : iset.getD cur.toNat false = false
                  · rw [show cpRandomStep bases related eqm copy st
                        ⟨cur, moves, states, imoves, iset, .visit false⟩
                        = Sum.inl ⟨cur, setPayloadAt moves cur.toNat mv,
                            states.set cur.toNat
                              (if cur > 0 then states.getD (cur.toNat - 1) default else st),
                            copy imoves (setPayloadAt moves cur.toNat mv) cur.toNat,
                            iset.set cur.toNat true, .check true⟩ from by
                          simp only [cpRandomStep, if_neg hneg, if_neg hend, hfm, hins,
                            eq_self_iff_true, if_true]] at hm'
                    obtain rfl := Sum.inl.inj hm'
                    exact hgoal _ _
                  · rw [show cpRandomStep bases related eqm copy st
                        ⟨cur, moves, states, imoves, iset, .visit false⟩
                        = Sum.inl ⟨cur, setPayloadAt moves cur.toNat mv,
                            states.set cur.toNat
                              (if cur > 0 then states.getD (cur.toNat - 1) default else st),
                            imoves, iset, .check true⟩ from by
                          simp only [cpRandomStep, if_neg hneg, if_neg hend, hfm,
                            if_neg hins]] at hm'
                    obtain rfl := Sum.inl.inj hm'
                    exact hgoal _ _
            | true =>
                rw [show cpRandomStep bases related eqm copy st
                    ⟨cur, moves, states, imoves, iset, .visit true⟩
                    = Sum.inl ⟨cur, moves,
                        states.set cur.toNat
                          (if cur > 0 then states.getD (cur.toNat - 1) default else st),
                        imoves, iset, .advance false⟩ from by
                      simp only [cpRandomStep, if_neg hneg, if_neg hend]] at hm'
                obtain rfl := Sum.inl.inj hm'
                unfold CPRInv
                dsimp only
                refine ⟨hml, by simp [hsl], by omega, ?_, hpair, by omega, by omega, ?_⟩
                · exact SettledOK_states_set hset cur.toNat (by omega) _
                · rw [getD_set_eq _ _ _ _ (by omega)]
                  exact hprev
          · cases bk with
            | false =>
                rcases hfm : (bases.getD cur.toNat BaseExplorer.dummy).RandomMove
                    (if cur > 0 then states.getD (cur.toNat - 1) default else st)
                  with _ | mv
                · rw [show cpRandomStep bases related eqm copy st
                      ⟨cur, moves, states, imoves, iset, .visit false⟩
                      = Sum.inl ⟨cur - 1, set_activity_at moves cur.toNat false,
                          states.set cur.toNat
                            (if cur > 0 then states.getD (cur.toNat - 1) default else st),
                          imoves, iset, .visit true⟩ from by
                        simp only [cpRandomStep, if_neg hneg, if_neg hend, hfm]] at hout
                  cases hout
                · by_cases hins : iset.getD cur.toNat false = false
                  · rw [show cpRandomStep bases related eqm copy st
                        ⟨cur, moves, states, imoves, iset, .visit false⟩
                        = Sum.inl ⟨cur, setPayloadAt moves cur.toNat mv,
                            states.set cur.toNat
                              (if cur > 0 then states.getD (cur.toNat - 1) default else st),
                            copy imoves (setPayloadAt moves cur.toNat mv) cur.toNat,
                            iset.set cur.toNat true, .check true⟩ from by
                          simp only [cpRandomStep, if_neg hneg, if_neg hend, hfm, hins,
                            eq_self_iff_true, if_true]] at hout
                    cases hout
                  · rw [show cpRandomStep bases related eqm copy st
                        ⟨cur, moves, states, imoves, iset, .visit false⟩
                        = Sum.inl ⟨cur, setPayloadAt moves cur.toNat mv,
                            states.set cur.toNat
                              (if cur > 0 then states.getD (cur.toNat - 1) default else st),
                            imoves, iset, .check true⟩ from by
                          simp only [cpRandomStep, if_neg hneg, if_neg hend, hfm,
                            if_neg hins]] at hout
                    cases hout
            | true =>
                simp only [cpRandomStep, if_neg hneg, if_neg hend] at hout
                cases hout
  | check intry =>
      dsimp only [CPRInv] at hph
      obtain ⟨hcur0, hcurN, hlvl⟩ := hph
      have hcN : cur.toNat < bases.length := by omega
      by_cases hrel : cur > 0 ∧ related (cur.toNat - 1) (states.getD (cur.toNat - 1) default)
          ((moves.getD (cur.toNat - 1) default).move)
          ((moves.getD cur.toNat default).move) = false
      · refine ⟨fun m' hm' => ?_, fun out hout => ?_⟩
        · rw [show cpRandomStep bases related eqm copy st
              ⟨cur, moves, states, imoves, iset, .check intry⟩
              = Sum.inl ⟨cur, moves, states, imoves, iset, .advance intry⟩ from by
                simp only [cpRandomStep, if_pos hrel]] at hm'
          obtain rfl := Sum.inl.inj hm'
          unfold CPRInv
          dsimp only
          exact ⟨hml, hsl, by omega, hset, hpair, by omega, by omega, hlvl⟩
        · rw [show cpRandomStep bases related eqm copy st
              ⟨cur, moves, states, imoves, iset, .check intry⟩
              = Sum.inl ⟨cur, moves, states, imoves, iset, .advance intry⟩ from by
                simp only [cpRandomStep, if_pos hrel]] at hout
          cases hout
      · refine ⟨fun m' hm' => ?_, fun out hout => ?_⟩
        · rw [show cpRandomStep bases related eqm copy st
              ⟨cur, moves, states, imoves, iset, .check intry⟩
              = Sum.inl ⟨cur + 1, set_activity_at moves cur.toNat true,
                  states.set cur.toNat
                    ((bases.getD cur.toNat BaseExplorer.dummy).MakeMove
                      (states.getD cur.toNat default)
                      ((moves.getD cur.toNat default).move)),
                  imoves, iset, .visit false⟩ from by
                simp only [cpRandomStep, if_neg hrel]] at hm'
          obtain rfl := Sum.inl.inj hm'
          have hmv : ∀ j, ((set_activity_at moves cur.toNat true).getD j default).move
              = ((moves.getD j default)).move := fun j => set_activity_at_move _ _ _ j
          have hnew : (states.set cur.toNat
              ((bases.getD cur.toNat BaseExplorer.dummy).MakeMove
                (states.getD cur.toNat default)
                ((moves.getD cur.toNat default).move))).getD cur.toNat default
              = applyUpTo bases st moves (cur.toNat + 1) := by
            rw [getD_set_eq _ _ _ _ (by omega), hlvl, applyUpTo_succ]
          have htn : (cur + 1).toNat = cur.toNat + 1 := by omega
          unfold CPRInv
          dsimp only
          rw [htn]
          refine ⟨by simp [set_activity_at, hml], by simp [hsl], by omega, ?_, ?_, by omega⟩
          · refine SettledOK_payload ?_ (fun j _ => hmv j)
            intro i hi
            rcases Nat.lt_or_ge i cur.toNat with hic | hic
            · rw [getD_set_ne _ _ _ _ _ (by omega)]
              exact hset i (by omega)
            · have : i = cur.toNat := by omega
              subst this
              exact hnew
          · refine PairsOK_payload ?_ (fun j _ => hmv j)
            intro i hi
            rcases Nat.lt_or_ge (i + 1) cur.toNat with hic | hic
            · exact hpair i (by omega)
            · have hieq : i + 1 = cur.toNat := by omega
              have hcpos : cur > 0 := by omega
              have hrt : related (cur.toNat - 1) (states.getD (cur.toNat - 1) default)
                  ((moves.getD (cur.toNat - 1) default).move)
                  ((moves.getD cur.toNat default).move) = true := by
                cases hre : related (cur.toNat - 1) (states.getD (cur.toNat - 1) default)
                  ((moves.getD (cur.toNat - 1) default).move)
                  ((moves.getD cur.toNat default).move) with
                | false => exact absurd ⟨hcpos, hre⟩ hrel
                | true => rfl
              have hstc : states.getD (cur.toNat - 1) default
                  = applyUpTo bases st moves cur.toNat := by
                rw [hset (cur.toNat - 1) (by omega)]
                congr 1
                omega
              have hii : i = cur.toNat - 1 := by omega
              subst hii
              rw [show cur.toNat - 1 + 1 = cur.toNat from by omega] at hieq ⊢
              rw [← hstc]
              exact hrt
        · rw [show cpRandomStep bases related eqm copy st
              ⟨cur, moves, states, imoves, iset, .check intry⟩
              = Sum.inl ⟨cur + 1, set_activity_at moves cur.toNat true,
                  states.set cur.toNat
                    ((bases.getD cur.toNat BaseExplorer.dummy).MakeMove
                      (states.getD cur.toNat default)
                      ((moves.getD cur.toNat default).move)),
                  imoves, iset, .visit false⟩ from by
                simp only [cpRandomStep, if_neg hrel]] at hout
          cases hout
  | advance intry =>
      dsimp only [CPRInv] at hph
      obtain ⟨hcur0, hcurN, hlvl⟩ := hph
      have hcN : cur.toNat < bases.length := by omega
      have hbt : CPRInv bases related st
          ⟨cur - 1, set_activity_at moves cur.toNat false, states, imoves, iset,
            .visit true⟩ := by
        have hmv : ∀ j, ((set_activity_at moves cur.toNat false).getD j default).move
            = ((moves.getD j default)).move := fun j => set_activity_at_move _ _ _ j
        unfold CPRInv
        dsimp only
        refine ⟨by simp [set_activity_at, hml], hsl, by omega, ?_, ?_, by omega⟩
        · exact SettledOK_payload (SettledOK_mono hset (by omega)) (fun j _ => hmv j)
        · exact PairsOK_payload (PairsOK_mono hpair (by omega)) (fun j _ => hmv j)
      have hupd : ∀ mv : Move,
          (CPRInv bases related st
            ⟨cur - 1, set_activity_at (setPayloadAt moves cur.toNat mv) cur.toNat false,
              states, imoves, iset, .visit true⟩)
          ∧ (CPRInv bases related st
            ⟨cur, setPayloadAt moves cur.toNat mv, states, imoves, iset,
              .check intry⟩) := by
        intro mv
        have hmv : ∀ j < cur.toNat,
            ((setPayloadAt moves cur.toNat mv).getD j default).move
            = ((moves.getD j default)).move :=
          fun j hj => setPayloadAt_move _ _ _ j (by omega)
        have hmv2 : ∀ j < cur.toNat,
            ((set_activity_at (setPayloadAt moves cur.toNat mv) cur.toNat false).getD
              j default).move = ((moves.getD j default)).move := by
          intro j hj
          rw [set_activity_at_move]
          exact hmv j hj
        constructor
        · unfold CPRInv
          dsimp only
          refine ⟨by simp [set_activity_at, setPayloadAt, hml], hsl, by omega, ?_, ?_,
            by omega⟩
          · exact SettledOK_payload (SettledOK_mono hset (by omega))
              fun j hj => hmv2 j (by omega)
          · exact PairsOK_payload (PairsOK_mono hpair (by omega))
              fun j hj => hmv2 j (by omega)
        · unfold CPRInv
          dsimp only
          refine ⟨by simp [setPayloadAt, hml], hsl, by omega, ?_, ?_,
            by omega, by omega, ?_⟩
          · exact SettledOK_payload hset hmv
          · exact PairsOK_payload hpair fun j hj => hmv j (by omega)
          · rw [hlvl]
            exact applyUpTo_congr bases st cur.toNat fun j hj => (hmv j hj).symm
      rcases hnm : (bases.getD cur.toNat BaseExplorer.dummy).NextMove
          (states.getD cur.toNat default)
          ((moves.getD cur.toNat default).move) with _ | mv
      · rcases hfm : (bases.getD cur.toNat BaseExplorer.dummy).FirstMove st with _ | mv
        · cases intry with
          | true =>
              refine ⟨fun m' hm' => ?_, fun out hout => ?_⟩
              · rw [show cpRandomStep bases related eqm copy st
                    ⟨cur, moves, states, imoves, iset, .advance true⟩
                    = Sum.inl ⟨cur - 1, set_activity_at moves cur.toNat false, states,
                        imoves, iset, .visit true⟩ from by
                      simp only [cpRandomStep, hnm, hfm]] at hm'
                obtain rfl := Sum.inl.inj hm'
                exact hbt
              · rw [show cpRandomStep bases related eqm copy st
                    ⟨cur, moves, states, imoves, iset, .advance true⟩
                    = Sum.inl ⟨cur - 1, set_activity_at moves cur.toNat false, states,
                        imoves, iset, .visit true⟩ from by
                      simp only [cpRandomStep, hnm, hfm]] at hout
                cases hout
          | false =>
              refine ⟨fun m' hm' => ?_, fun out hout => ?_⟩
              · rw [show cpRandomStep bases related eqm copy st
                    ⟨cur, moves, states, imoves, iset, .advance false⟩
                    = Sum.inr none from by simp only [cpRandomStep, hnm, hfm]] at hm'
                cases hm'
              · rw [show cpRandomStep bases related eqm copy st
                    ⟨cur, moves, states, imoves, iset, .advance false⟩
                    = Sum.inr none from by simp only [cpRandomStep, hnm, hfm]] at hout
                cases hout
        · by_cases heq : activeMoveEq eqm
              ((setPayloadAt moves cur.toNat mv).getD cur.toNat default)
              (imoves.getD cur.toNat default) = true
          · refine ⟨fun m' hm' => ?_, fun out hout => ?_⟩
            · rw [show cpRandomStep bases related eqm copy st
                  ⟨cur, moves, states, imoves, iset, .advance intry⟩
                  = Sum.inl ⟨cur - 1,
                      set_activity_at (setPayloadAt moves cur.toNat mv) cur.toNat false,
                      states, imoves, iset, .visit true⟩ from by
                    simp only [cpRandomStep, hnm, hfm, if_pos heq]] at hm'
              obtain rfl := Sum.inl.inj hm'
              exact (hupd mv).1
            · rw [show cpRandomStep bases related eqm copy st
                  ⟨cur, moves, states, imoves, iset, .advance intry⟩
                  = Sum.inl ⟨cur - 1,
                      set_activity_at (setPayloadAt moves cur.toNat mv) cur.toNat false,
                      states, imoves, iset, .visit true⟩ from by
                    simp only [cpRandomStep, hnm, hfm, if_pos heq]] at hout
              cases hout
          · refine ⟨fun m' hm' => ?_, fun out hout => ?_⟩
            · rw [show cpRandomStep bases related eqm copy st
                  ⟨cur, moves, states, imoves, iset, .advance intry⟩
                  = Sum.inl ⟨cur, setPayloadAt moves cur.toNat mv, states, imoves, iset,
                      .check intry⟩ from by
                    simp only [cpRandomStep, hnm, hfm, if_neg heq]] at hm'
              obtain rfl := Sum.inl.inj hm'
              exact (hupd mv).2
            · rw [show cpRandomStep bases related eqm copy st
                  ⟨cur, moves, states, imoves, iset, .advance intry⟩
                  = Sum.inl ⟨cur, setPayloadAt moves cur.toNat mv, states, imoves, iset,
                      .check intry⟩ from by
                    simp only [cpRandomStep, hnm, hfm, if_neg heq]] at hout
              cases hout
      · by_cases heq : activeMoveEq eqm
            ((setPayloadAt moves cur.toNat mv).getD cur.toNat default)
            (imoves.getD cur.toNat default) = true
        · refine ⟨fun m' hm' => ?_, fun out hout => ?_⟩
          · rw [show cpRandomStep bases related eqm copy st
                ⟨cur, moves, states, imoves, iset, .advance intry⟩
                = Sum.inl ⟨cur - 1,
                    set_activity_at (setPayloadAt moves cur.toNat mv) cur.toNat false,
                    states, imoves, iset, .visit true⟩ from by
                  simp only [cpRandomStep, hnm, if_pos heq]] at hm'
            obtain rfl := Sum.inl.inj hm'
            exact (hupd mv).1
          · rw [show cpRandomStep bases related eqm copy st
                ⟨cur, moves, states, imoves, iset, .advance intry⟩
                = Sum.inl ⟨cur - 1,
                    set_activity_at (setPayloadAt moves cur.toNat mv) cur.toNat false,
                    states, imoves, iset, .visit true⟩ from by
                  simp only [cpRandomStep, hnm, if_pos heq]] at hout
            cases hout
        · refine ⟨fun m' hm' => ?_, fun out hout => ?_⟩
          · rw [show cpRandomStep bases related eqm copy st
                ⟨cur, moves, states, imoves, iset, .advance intry⟩
                = Sum.inl ⟨cur, setPayloadAt moves cur.toNat mv, states, imoves, iset,
                    .check intry⟩ from by
                  simp only [cpRandomStep, hnm, if_neg heq]] at hm'
            obtain rfl := Sum.inl.inj hm'
            exact (hupd mv).2
          · rw [show cpRandomStep bases related eqm copy st
                ⟨cur, moves, states, imoves, iset, .advance intry⟩
                = Sum.inl ⟨cur, setPayloadAt moves cur.toNat mv, states, imoves, iset,
                    .check intry⟩ from by
                  simp only [cpRandomStep, hnm, if_neg heq]] at hout
            cases hout

theorem cpRun_random_sound {State Move : Type} [Inhabited State] [Inhabited Move]
    (bases : List (BaseExplorer State Move))
    (related : Nat → State → Move → Move → Bool)
    (eqm : Move → Move → Bool)
    (copy : List (ActiveMove Move) → List (ActiveMove Move) → Nat → List (ActiveMove Move))
    (st : State) (fuel : Nat) (m : CPRMachine State Move)
    (hInv : CPRInv bases related st m) (out : List (ActiveMove Move))
    (h : cpRun (cpRandomStep bases related eqm copy st) fuel m = some (some out)) :
    out.length = bases.length ∧ PairsOK bases related st out bases.length := by
  induction fuel generalizing m with
  | zero => cases h
  | succ n ih =>
      unfold cpRun at h
      rcases hstep : cpRandomStep bases related eqm copy st m with m' | r
      · rw [hstep] at h
        exact ih m'
          ((cpRandomStep_preserves bases related eqm copy st m hInv).1 m' hstep) h
      · rw [hstep] at h
        obtain rfl : r = some out := by injection h
        exact (cpRandomStep_preserves bases related eqm copy st m hInv).2 out hstep

theorem CPRInv_init {State Move : Type} [Inhabited State] [Inhabited Move]
    (bases : List (BaseExplorer State Move))
    (related : Nat → State → Move → Move → Bool) (st : State)
    (moves0 : List (ActiveMove Move)) (hlen : moves0.length = bases.length) :
    CPRInv bases related st
      ⟨0, moves0, List.replicate bases.length st,
        List.replicate bases.length default, List.replicate bases.length false,
        .visit false⟩ := by
  unfold CPRInv
  dsimp only
  refine ⟨hlen, by simp, by omega, ?_, ?_, by omega⟩
  · intro i hi
    simp at hi
  · intro i hi
    simp at hi

/-- C3.  Every composite chain returned by the Cartesian product explorer's
`FirstMove` or `RandomMove` has every pair of consecutive moves satisfying
the registered relatedness predicate (evaluated, as the code does, on the
settled intermediate state of the earlier level; an unregistered predicate is
the constantly-true one, making the condition vacuous), and the composite
`DeltaCostFunctionComponents` equals the sum over levels `i` of base `i`'s
delta cost evaluated on the intermediate state with moves `0..i-1` applied
to the input state. -/
theorem cp_chains_related_and_delta_sum {State Move : Type}
    [Inhabited State] [Inhabited Move]
    (bases : List (BaseExplorer State Move))
    (related : Nat → State → Move → Move → Bool)
    (eqm : Move → Move → Bool) (st : State)
    (moves0 : List (ActiveMove Move)) (fuel : Nat)
    (hlen : moves0.length = bases.length) :
    (∀ out, CPFirstMove bases related st moves0 fuel = some (some out) →
        out.length = bases.length ∧ PairsOK bases related st out bases.length)
    ∧ (∀ out, CPRandomMove bases related eqm st moves0 fuel = some (some out) →
        out.length = bases.length ∧ PairsOK bases related st out bases.length)
    ∧ (∀ moves : List (ActiveMove Move), moves.length = bases.length →
        CPDeltaCostFunctionComponents bases st moves
          = ((List.range bases.length).map fun i =>
              (bases.getD i BaseExplorer.dummy).DeltaCost
                (applyUpTo bases st moves i)
                ((moves.getD i default).move)).foldl DefaultCostStructure.add
              DefaultCostStructure.empty) := by
  refine ⟨fun out h => ?_, fun out h => ?_, fun moves hm => ?_⟩
  · exact cpRun_first_sound bases related st fuel _
      (CPInv_init bases related st moves0 hlen) out h
  · exact cpRun_random_sound bases related eqm copy_move_at st fuel _
      (CPRInv_init bases related st moves0 hlen) out h
  · exact cp_delta_is_sum bases st moves hm

theorem cp_chains_related_and_delta_sum_witness :
    (decide ((1 : Nat) < 5) = true)
    ∧ (decide ((1 : Nat) < 5) = true)
    ∧ CPDeltaCostFunctionComponents
        [(⟨fun _ => some 1, fun _ _ => none, fun _ => some 1, fun s m => s + m,
            fun s m => ⟨s + m, 0, s + m, [], 0, false⟩⟩ : BaseExplorer Nat Nat),
         ⟨fun _ => some 5, fun _ m => if m = 5 then some 6 else none,
            fun _ => some 5, fun s m => s * m,
            fun s m => ⟨s * m, 0, s * m, [], 0, false⟩⟩]
        0 [⟨1, true⟩, ⟨5, true⟩]
      = ((List.range 2).map fun i =>
          (([(⟨fun _ => some 1, fun _ _ => none, fun _ => some 1, fun s m => s + m,
              fun s m => ⟨s + m, 0, s + m, [], 0, false⟩⟩ : BaseExplorer Nat Nat),
           ⟨fun _ => some 5, fun _ m => if m = 5 then some 6 else none,
              fun _ => some 5, fun s m => s * m,
              fun s m => ⟨s * m, 0, s * m, [], 0, false⟩⟩]).getD i BaseExplorer.dummy).DeltaCost
            (applyUpTo
              [(⟨fun _ => some 1, fun _ _ => none, fun _ => some 1, fun s m => s + m,
                  fun s m => ⟨s + m, 0, s + m, [], 0, false⟩⟩ : BaseExplorer Nat Nat),
               ⟨fun _ => some 5, fun _ m => if m = 5 then some 6 else none,
                  fun _ => some 5, fun s m => s * m,
                  fun s m => ⟨s * m, 0, s * m, [], 0, false⟩⟩] 0 [⟨1, true⟩, ⟨5, true⟩] i)
            (([(⟨1, true⟩ : ActiveMove Nat), ⟨5, true⟩].getD i default).move)).foldl
          DefaultCostStructure.add DefaultCostStructure.empty := by
  have h := cp_chains_related_and_delta_sum
    [(⟨fun _ => some 1, fun _ _ => none, fun _ => some 1, fun s m => s + m,
        fun s m => ⟨s + m, 0, s + m, [], 0, false⟩⟩ : BaseExplorer Nat Nat),
     ⟨fun _ => some 5, fun _ m => if m = 5 then some 6 else none,
        fun _ => some 5, fun s m => s * m,
        fun s m => ⟨s * m, 0, s * m, [], 0, false⟩⟩]
    (fun _ _ a b => decide (a < b)) (fun a b => a == b) 0
    [⟨0, false⟩, ⟨0, false⟩] 10 rfl
  refine ⟨?_, ?_, ?_⟩
  · exact (h.1 [⟨1, true⟩, ⟨5, true⟩] rfl).2 0 (by decide)
  · exact (h.2.1 [⟨1, true⟩, ⟨5, true⟩] rfl).2 0 (by decide)
  · exact h.2.2 [⟨1, true⟩, ⟨5, true⟩] rfl

theorem cpRun_succ_inl {M R : Type} (step : M → Sum M R) (n : Nat) (m m' : M)
    (h : step m = Sum.inl m') : cpRun step (n + 1) m = cpRun step n m' := by
  simp only [cpRun, h]

/-- A two-level instance on which the wrap-around detection of `RandomMove`
must fire: base 0 has the single move `0`; base 1 has the moves `0` and `1`
(`NextMove` maps `0` to `1` and exhausts at `1`); the relatedness predicate
rejects every pair, so level 1 can never settle and must exhaust. -/
def cpBugB0 : BaseExplorer Nat Nat :=
  ⟨fun _ => some 0, fun _ _ => none, fun _ => some 0, fun s _ => s,
    fun _ _ => DefaultCostStructure.empty⟩

def cpBugB1 : BaseExplorer Nat Nat :=
  ⟨fun _ => some 0, fun _ m => if m = 0 then some 1 else none,
    fun _ => some 0, fun s _ => s, fun _ _ => DefaultCostStructure.empty⟩

def cpBugBases : List (BaseExplorer Nat Nat) := [cpBugB0, cpBugB1]

def cpBugRelated : Nat → Nat → Nat → Nat → Bool := fun _ _ _ _ => false

/-- The stepping function of `RandomMove` on the instance, with the source's
(self-assigning) `copy_move_at`. -/
def cpBugStep : CPRMachine Nat Nat →
    Sum (CPRMachine Nat Nat) (Option (List (ActiveMove Nat))) :=
  cpRandomStep cpBugBases cpBugRelated (fun a b => a == b) copy_move_at 0

/-- The machine at the start of `RandomMove` on the instance. -/
def cpBugInit : CPRMachine Nat Nat :=
  ⟨0, [⟨7, true⟩, ⟨7, true⟩], List.replicate 2 0, List.replicate 2 default,
    List.replicate 2 false, .visit false⟩

/-- After three steps the machine reaches level 1 with its random move `0`
drawn; because `copy_move_at` never wrote it, `initial_moves` still holds the
value-initialized inactive moves. -/
def cpBugM3 : CPRMachine Nat Nat :=
  ⟨1, [⟨0, true⟩, ⟨0, true⟩], [0, 0], [⟨0, false⟩, ⟨0, false⟩], [true, true],
    .check true⟩

def cpBugM4 : CPRMachine Nat Nat :=
  ⟨1, [⟨0, true⟩, ⟨0, true⟩], [0, 0], [⟨0, false⟩, ⟨0, false⟩], [true, true],
    .advance true⟩

def cpBugM5 : CPRMachine Nat Nat :=
  ⟨1, [⟨0, true⟩, ⟨1, true⟩], [0, 0], [⟨0, false⟩, ⟨0, false⟩], [true, true],
    .check true⟩

def cpBugM6 : CPRMachine Nat Nat :=
  ⟨1, [⟨0, true⟩, ⟨1, true⟩], [0, 0], [⟨0, false⟩, ⟨0, false⟩], [true, true],
    .advance true⟩

/-- The four machines form a cycle: the active candidate (`⟨0,true⟩` or
`⟨1,true⟩`) never compares equal to the remembered inactive initial move
(`operator==` on differing activity flags is `false`), so the wrap-around is
never detected and no fuel suffices. -/
theorem cpBug_cycle (n : Nat) :
    cpRun cpBugStep n cpBugM3 = none ∧ cpRun cpBugStep n cpBugM4 = none ∧
    cpRun cpBugStep n cpBugM5 = none ∧ cpRun cpBugStep n cpBugM6 = none := by
  induction n with
  | zero => exact ⟨rfl, rfl, rfl, rfl⟩
  | succ k ih =>
      refine ⟨?_, ?_, ?_, ?_⟩
      · rw [cpRun_succ_inl cpBugStep k cpBugM3 cpBugM4 rfl]
        exact ih.2.1
      · rw [cpRun_succ_inl cpBugStep k cpBugM4 cpBugM5 rfl]
        exact ih.2.2.1
      · rw [cpRun_succ_inl cpBugStep k cpBugM5 cpBugM6 rfl]
        exact ih.2.2.2
      · rw [cpRun_succ_inl cpBugStep k cpBugM6 cpBugM3 rfl]
        exact ih.1

/-- C4.  Refuted: the per-level wrap-around detection of the Cartesian
product explorer's `RandomMove` does not make the search terminate.
`Impl::MoveDispatcher::copy_move_at` reads both the assigned reference and
the assigned value from `target`, so the first randomly drawn move is never
remembered: the comparison runs against the value-initialized inactive
`ActiveMove`, which never equals an active candidate.  On the concrete
two-level instance (level 1 holds two moves that cycle under
`NextMove`/`FirstMove` wrap-around, and the relatedness predicate rejects
every pair) the level-1 enumeration never detects exhaustion: for every
fuel bound the machine is still running, i.e. `random_move` neither returns
a chain nor raises `EmptyNeighborhood`. -/
theorem cp_random_wrap_detection_diverges (fuel : Nat) :
    CPRandomMove cpBugBases cpBugRelated (fun a b => a == b) 0
      [⟨7, true⟩, ⟨7, true⟩] fuel = none := by
  match fuel with
  | 0 => rfl
  | 1 => rfl
  | 2 => rfl
  | k + 3 =>
      show cpRun cpBugStep (k + 3) cpBugInit = none
      rw [cpRun_succ_inl cpBugStep (k + 2) cpBugInit
            ⟨0, [⟨0, true⟩, ⟨7, true⟩], [0, 0], [⟨0, false⟩, ⟨0, false⟩],
              [true, false], .check true⟩ rfl,
          cpRun_succ_inl cpBugStep (k + 1)
            ⟨0, [⟨0, true⟩, ⟨7, true⟩], [0, 0], [⟨0, false⟩, ⟨0, false⟩],
              [true, false], .check true⟩
            ⟨1, [⟨0, true⟩, ⟨7, true⟩], [0, 0], [⟨0, false⟩, ⟨0, false⟩],
              [true, false], .visit false⟩ rfl,
          cpRun_succ_inl cpBugStep k
            ⟨1, [⟨0, true⟩, ⟨7, true⟩], [0, 0], [⟨0, false⟩, ⟨0, false⟩],
              [true, false], .visit false⟩ cpBugM3 rfl]
      exact (cpBug_cycle k).1

/-- With the copy that `copy_move_at` evidently intends (remembering the
drawn move from the freshly written tuple), the same instance terminates:
the wrap-around at level 1 is detected, the machine backtracks, level 0
exhausts too, and the run raises `EmptyNeighborhood` within 10 steps. -/
theorem cpBug_intended_terminates :
    cpRun (cpRandomStep cpBugBases cpBugRelated (fun a b => a == b)
        copy_move_at_intended 0) 10 cpBugInit = some none := rfl

end EasyLocalCheck
